import Mathlib

/-!
Verification development for the heebiejeebies reactive template library.

The JavaScript sources are shallowly embedded: JS strings become `String`
or `List Char`, JS arrays that may contain holes become `List (Option _)`,
JS `Map`s become insertion-ordered association lists, and fallible code
returns `Except`.  The tree-builder collaborator (`XMLParser.js`) is not
part of the sources, so its operations are modelled from the spec where a
claim needs them.
-/

set_option maxHeartbeats 1000000

namespace Heebie

/-! ### JS string primitives -/

/-- Whitespace test used by the JS trim and whitespace-split models. -/
def jsWs (c : Char) : Bool := c.isWhitespace

/-- Model of JS String.prototype.trim on a character list. -/
def jsTrim (l : List Char) : List Char :=
  ((l.dropWhile jsWs).reverse.dropWhile jsWs).reverse

/-- The single-quote character, written by code point. -/
def quoteChar : Char := Char.ofNat 39

/-- Model of .replace applied with the regex matching one trailing quote
character (single or double). -/
def stripTrailingQuote (l : List Char) : List Char :=
  match l.getLast? with
  | some c => if c = quoteChar ∨ c = '"' then l.dropLast else l
  | none => l

/-- Model of JS split applied with the regex matching a maximal nonempty
whitespace run.  Splitting at every single whitespace character and then
dropping the empty interior pieces (which arise only between consecutive
whitespace characters of one run) realizes the run-based JS split; the
boundary pieces stay, so a leading or trailing run still contributes an
empty piece, exactly as in JS. -/
def jsSplitWs (l : List Char) : List (List Char) :=
  match List.splitOnP jsWs l with
  | [] => [[]]
  | [p] => [p]
  | p :: ps => (p :: ps.dropLast.filter (fun r => !r.isEmpty)) ++ [(ps.getLast?).getD []]

/-- Model of .split followed by .pop: the final piece of the
whitespace split. -/
def lastTokenJS (l : List Char) : List Char :=
  ((jsSplitWs l).getLast?).getD []

/-- The tail token computed by decodeAttribute: trim, strip one trailing
quote, split on whitespace, take the last piece. -/
def normalizedCharacterTokens (htmlStr : String) : List Char :=
  lastTokenJS (stripTrailingQuote (jsTrim htmlStr.toList))

/-- Test for the two markup bracket characters. -/
def isBracketChar (c : Char) : Bool := c == '<' || c == '>'

/-- Model of the decodeAttribute bracket scan: trim, split on the regex
matching any single non-bracket character, and drop empty pieces.  The JS
split at each single-character match leaves maximal bracket runs intact. -/
def bracketCycle (htmlStr : String) : List (List Char) :=
  (List.splitOnP (fun c => !isBracketChar c) (jsTrim htmlStr.toList)).filter
    (fun r => !r.isEmpty)

/-- Model of charAt-0 uppercasing plus slice-1, as the source capitalizes
attribute names. -/
def capitalizeJS (s : String) : String :=
  match s.toList with
  | [] => ""
  | c :: rest => (c.toUpper :: rest).asString

/-- The placement classification decodeAttribute returns: exactly one of
the three context flags of the source's returned objects. -/
inductive Classification where
  | attributeValueAssignment (attributeName : String) (capabilityFlag : String)
  | attributeDomain
  | elementDomain
deriving DecidableEq

/-- Model of decodeAttribute from Record.js: classify the literal segment
preceding an interpolation point. -/
def decodeAttribute (htmlStr : String) : Classification :=
  let tail := normalizedCharacterTokens htmlStr
  if tail.getLast? = some '=' then
    let attributeName := (tail.dropLast).asString
    Classification.attributeValueAssignment attributeName
      ("is" ++ capitalizeJS attributeName ++ "Attribute")
  else if (bracketCycle htmlStr).getLast? = some ['<'] then
    Classification.attributeDomain
  else
    Classification.elementDomain

/-! ### Spec-side bracket description for claim C4 -/

/-- The bracket characters of a segment in order, as the spec phrase
"retaining only the characters < and > in order" describes. -/
def retainedBrackets (htmlStr : String) : List Char :=
  htmlStr.toList.filter isBracketChar

/-- Maximal runs of consecutive bracket characters of a character list,
defined by direct grouping, independently of the split model. -/
def bracketRuns : List Char → List (List Char)
  | [] => []
  | c :: rest =>
    let tailRuns := bracketRuns rest
    if isBracketChar c then
      match rest.head? with
      | some d =>
        if isBracketChar d then
          match tailRuns with
          | r :: rs => (c :: r) :: rs
          | [] => [[c]]
        else [c] :: tailRuns
      | none => [[c]]
    else tailRuns

/-- Sanity: the decoder examples of the source documentation. -/
example : decodeAttribute "class=\"" =
    Classification.attributeValueAssignment "class" "isClassAttribute" := by decide

example : decodeAttribute "<div " = Classification.attributeDomain := by decide

example : decodeAttribute "<div>" = Classification.elementDomain := by decide

example : decodeAttribute "a><" = Classification.elementDomain := by decide

example : retainedBrackets "a><" = ['>', '<'] := by decide

/-- Dropping the empty pieces of the single-character split at non-bracket
characters yields exactly the maximal runs of consecutive bracket
characters. -/
theorem splitNonBracket_eq_bracketRuns (l : List Char) :
    (List.splitOnP (fun c => !isBracketChar c) l).filter (fun r => !r.isEmpty) =
      bracketRuns l := by
  induction l with
  | nil => simp [bracketRuns]
  | cons c rest ih =>
    rw [List.splitOnP_cons]
    by_cases hc : isBracketChar c = true
    · rw [if_neg (by simp [hc])]
      match rest, ih with
      | [], _ =>
        simp [bracketRuns, hc, List.splitOnP_nil]
      | d :: rest', ih =>
        by_cases hd : isBracketChar d = true
        · rcases hsp : List.splitOnP (fun c => !isBracketChar c) rest' with _ | ⟨h0, t0⟩
          · exact absurd hsp (List.splitOnP_ne_nil _ _)
          · rw [List.splitOnP_cons, if_neg (by simp [hd]), hsp] at ih ⊢
            simp only [List.modifyHead, List.filter_cons, List.isEmpty_cons,
              Bool.not_false] at ih ⊢
            simp only [bracketRuns, hc, hd, List.head?_cons, if_pos] at ih ⊢
            rw [← ih]
        · rw [List.splitOnP_cons, if_pos (by simp [hd])] at ih ⊢
          simp only [List.modifyHead, List.filter_cons, List.isEmpty_cons,
            Bool.not_false, List.isEmpty_nil, Bool.not_true] at ih ⊢
          simp only [bracketRuns, hc, hd, List.head?_cons] at ih ⊢
          simp only [Bool.false_eq_true, if_false] at ih ⊢
          rw [ih]
    · rw [if_pos (by simp [hc])]
      simp only [List.filter_cons, List.isEmpty_nil, Bool.not_true,
        Bool.false_eq_true, if_false]
      rw [ih]
      simp [bracketRuns, hc]

/-- C4 counterexample: for the segment "a><" the last retained bracket
character is '<' and the last whitespace-separated token does not end with
'=', yet the decoder classifies element-domain, refuting the claimed
characterization of attribute-domain. -/
theorem claim4_counterexample :
    (normalizedCharacterTokens "a><").getLast? ≠ some '=' ∧
    (retainedBrackets "a><").getLast? = some '<' ∧
    decodeAttribute "a><" ≠ Classification.attributeDomain := by decide

/-- C4 (amended): for every literal segment whose trimmed, quote-stripped
last whitespace-separated token does not end with '=', the decoder
classifies attribute-domain exactly when the last maximal run of
consecutive bracket characters of the trimmed segment is exactly the
single character '<'; otherwise it classifies element-domain. -/
theorem claim4_decoder_bracket_classification (htmlStr : String)
    (h : (normalizedCharacterTokens htmlStr).getLast? ≠ some '=') :
    (decodeAttribute htmlStr = Classification.attributeDomain ↔
      (bracketRuns (jsTrim htmlStr.toList)).getLast? = some ['<']) ∧
    (decodeAttribute htmlStr = Classification.elementDomain ↔
      ¬ (bracketRuns (jsTrim htmlStr.toList)).getLast? = some ['<']) := by
  have hbc : bracketCycle htmlStr = bracketRuns (jsTrim htmlStr.toList) :=
    splitNonBracket_eq_bracketRuns _
  unfold decodeAttribute
  rw [if_neg h, hbc]
  by_cases hb : (bracketRuns (jsTrim htmlStr.toList)).getLast? = some ['<']
  · rw [if_pos hb]
    exact ⟨Iff.intro (fun _ => hb) (fun _ => rfl),
      Iff.intro (fun hce => nomatch hce) (fun hn => absurd hb hn)⟩
  · rw [if_neg hb]
    exact ⟨Iff.intro (fun hce => nomatch hce) (fun hcond => absurd hcond hb),
      Iff.intro (fun _ => hb) (fun _ => rfl)⟩

/-- Witness for C4: the amended classification instantiated at the two
segments the spec names. -/
theorem claim4_witness :
    decodeAttribute "<div " = Classification.attributeDomain ∧
    decodeAttribute "<div>" = Classification.elementDomain := by
  constructor
  · exact (claim4_decoder_bracket_classification "<div " (by decide)).1.mpr (by decide)
  · exact (claim4_decoder_bracket_classification "<div>" (by decide)).2.mpr (by decide)

/-! ### Reactive Value (the Signal class)

The class is generic JS: which values compare loosely equal and which are
nullish is decided by the host runtime, so the embedding takes the loose
equality test and the nullish test as parameters.  Subscribers are opaque
callback tokens; a JS Set iterates in insertion order, so the subscriber
set is a duplicate-free list in registration order, and the observable
behavior of a notification loop is the list of (subscriber, delivered
value) calls it performs. -/

/-- State of one Signal: the stored value and the subscriber set. -/
structure SignalState (α : Type) where
  value : α
  subscribers : List Nat
deriving DecidableEq

/-- Model of Set.prototype.add: a no-op when the element is present,
otherwise appended at the end of the iteration order. -/
def jsSetAdd (l : List Nat) (x : Nat) : List Nat :=
  if x ∈ l then l else l ++ [x]

/-- Model of the Signal value setter: exit early when the new value is
loosely equal to the stored one, otherwise store it and notify every
subscriber with the new value, in registration order. -/
def Signal.setValue {α : Type} (looseEq : α → α → Bool) (s : SignalState α)
    (newValue : α) : SignalState α × List (Nat × α) :=
  if looseEq newValue s.value then (s, [])
  else ({ value := newValue, subscribers := s.subscribers },
    s.subscribers.map (fun sub => (sub, newValue)))

/-- Model of Signal.prototype.subscribe: call the new subscriber at once
with the current value unless that value is nullish, then add it to the
subscriber set. -/
def Signal.subscribe {α : Type} (isNullish : α → Bool) (s : SignalState α)
    (subscriber : Nat) : SignalState α × List (Nat × α) :=
  ({ value := s.value, subscribers := jsSetAdd s.subscribers subscriber },
   if isNullish s.value then [] else [(subscriber, s.value)])

/-- Model of the closure subscribe returns: Set.prototype.delete of the
captured subscriber; the Bool is delete's return value. -/
def Signal.unsubscribeRun {α : Type} (subscriber : Nat) (s : SignalState α) :
    SignalState α × Bool :=
  ({ value := s.value, subscribers := s.subscribers.erase subscriber },
   decide (subscriber ∈ s.subscribers))

/-- Model of Signal.prototype.notify: call every subscriber with the
current value, in registration order. -/
def Signal.notify {α : Type} (s : SignalState α) : List (Nat × α) :=
  s.subscribers.map (fun sub => (sub, s.value))

/-- Membership after a JS Set add. -/
theorem mem_jsSetAdd (l : List Nat) (x y : Nat) :
    y ∈ jsSetAdd l x ↔ y ∈ l ∨ y = x := by
  by_cases hx : x ∈ l
  · simp only [jsSetAdd, if_pos hx]
    constructor
    · exact Or.inl
    · rintro (h | rfl) <;> [exact h; exact hx]
  · simp [jsSetAdd, hx]

/-- A JS Set add preserves duplicate-freedom. -/
theorem jsSetAdd_nodup {l : List Nat} {x : Nat} (h : l.Nodup) :
    (jsSetAdd l x).Nodup := by
  by_cases hx : x ∈ l <;> simp [jsSetAdd, hx, h, List.nodup_append]

/-- C5: assigning a value loosely equal to the stored one is a no-op that
notifies nobody, while assigning a non-equal value stores it and
synchronously notifies all current subscribers, in registration order,
with the new value. -/
theorem claim5_setter_loose_equality {α : Type} (looseEq : α → α → Bool)
    (s : SignalState α) (v : α) :
    (looseEq v s.value = true → Signal.setValue looseEq s v = (s, [])) ∧
    (looseEq v s.value = false →
      (Signal.setValue looseEq s v).1.value = v ∧
      (Signal.setValue looseEq s v).1.subscribers = s.subscribers ∧
      (Signal.setValue looseEq s v).2 = s.subscribers.map (fun sub => (sub, v))) := by
  constructor
  · intro h
    simp [Signal.setValue, h]
  · intro h
    simp [Signal.setValue, h]

/-- Witness for C5 at a concrete signal holding 5 with two subscribers:
re-assigning 5 does nothing, assigning 7 notifies both, in order, with 7. -/
theorem claim5_witness :
    Signal.setValue (fun a b : Int => a == b) ⟨5, [1, 2]⟩ 5 = (⟨5, [1, 2]⟩, []) ∧
    (Signal.setValue (fun a b : Int => a == b) ⟨5, [1, 2]⟩ 7).2 = [(1, 7), (2, 7)] := by
  constructor
  · exact (claim5_setter_loose_equality (fun a b : Int => a == b) ⟨5, [1, 2]⟩ 5).1
      (by decide)
  · exact (((claim5_setter_loose_equality (fun a b : Int => a == b) ⟨5, [1, 2]⟩ 7).2
      (by decide)).2.2).trans (by decide)

/-- C6: subscribing invokes the new subscriber immediately with the current
value exactly when that value is non-nullish, then registers it without
changing the stored value; running the returned unsubscribe handle removes
exactly that subscriber, leaves every other subscriber's membership as it
was, and the removed subscriber appears in no later notification. -/
theorem claim6_subscribe_eager_delivery {α : Type} (isNullish : α → Bool)
    (s : SignalState α) (sub : Nat) (hnd : s.subscribers.Nodup) :
    (isNullish s.value = false →
      (Signal.subscribe isNullish s sub).2 = [(sub, s.value)]) ∧
    (isNullish s.value = true → (Signal.subscribe isNullish s sub).2 = []) ∧
    sub ∈ (Signal.subscribe isNullish s sub).1.subscribers ∧
    (Signal.subscribe isNullish s sub).1.value = s.value ∧
    sub ∉ (Signal.unsubscribeRun sub (Signal.subscribe isNullish s sub).1).1.subscribers ∧
    (∀ x, x ≠ sub →
      (x ∈ (Signal.unsubscribeRun sub (Signal.subscribe isNullish s sub).1).1.subscribers ↔
        x ∈ s.subscribers)) ∧
    (∀ x v, (x, v) ∈
        Signal.notify (Signal.unsubscribeRun sub (Signal.subscribe isNullish s sub).1).1 →
      x ≠ sub) := by
  have hadd : (Signal.subscribe isNullish s sub).1.subscribers =
      jsSetAdd s.subscribers sub := rfl
  have haddnd : (jsSetAdd s.subscribers sub).Nodup := jsSetAdd_nodup hnd
  have hne : sub ∉ (jsSetAdd s.subscribers sub).erase sub := by
    intro hmem
    exact ((List.Nodup.mem_erase_iff haddnd).mp hmem).1 rfl
  refine ⟨fun h => by simp [Signal.subscribe, h], fun h => by simp [Signal.subscribe, h],
    ?_, rfl, ?_, ?_, ?_⟩
  · rw [hadd, mem_jsSetAdd]
    exact Or.inr rfl
  · exact hne
  · intro x hx
    show x ∈ (jsSetAdd s.subscribers sub).erase sub ↔ x ∈ s.subscribers
    rw [List.Nodup.mem_erase_iff haddnd, mem_jsSetAdd]
    constructor
    · rintro ⟨-, h | rfl⟩
      · exact h
      · exact absurd rfl hx
    · exact fun h => ⟨hx, Or.inl h⟩
  · intro x v hmem
    simp only [Signal.notify, List.mem_map] at hmem
    obtain ⟨y, hy, hxy⟩ := hmem
    have hyx : y = x := congrArg Prod.fst hxy
    rintro rfl
    exact hne (hyx ▸ hy)

/-- Witness for C6 at a signal holding 5 with one subscriber 7 and new
subscriber 9: the immediate delivery, the registration, and the removal by
the unsubscribe handle. -/
theorem claim6_witness :
    (Signal.subscribe (fun _ : Int => false) ⟨5, [7]⟩ 9).2 = [(9, 5)] ∧
    9 ∈ (Signal.subscribe (fun _ : Int => false) ⟨5, [7]⟩ 9).1.subscribers ∧
    9 ∉ (Signal.unsubscribeRun 9
      (Signal.subscribe (fun _ : Int => false) ⟨5, [7]⟩ 9).1).1.subscribers ∧
    (7 ∈ (Signal.unsubscribeRun 9
      (Signal.subscribe (fun _ : Int => false) ⟨5, [7]⟩ 9).1).1.subscribers ↔
      7 ∈ ([7] : List Nat)) := by
  have h := claim6_subscribe_eager_delivery (fun _ : Int => false) ⟨5, [7]⟩ 9 (by decide)
  exact ⟨h.1 rfl, h.2.2.1, h.2.2.2.2.1, h.2.2.2.2.2.1 7 (by decide)⟩

/-- C10: the unsubscribe handle is idempotent: the first run removes the
subscriber from the subscriber set, and a second run is an error-free
no-op that reports false and leaves the subscriber set unchanged. -/
theorem claim10_unsubscribe_idempotent {α : Type} (s : SignalState α) (sub : Nat)
    (hnd : s.subscribers.Nodup) :
    sub ∉ (Signal.unsubscribeRun sub s).1.subscribers ∧
    Signal.unsubscribeRun sub (Signal.unsubscribeRun sub s).1 =
      ((Signal.unsubscribeRun sub s).1, false) := by
  have hne : sub ∉ s.subscribers.erase sub := by
    intro hmem
    exact ((List.Nodup.mem_erase_iff hnd).mp hmem).1 rfl
  refine ⟨hne, ?_⟩
  simp only [Signal.unsubscribeRun, List.erase_of_not_mem hne]
  simp [hne]

/-- Witness for C10 at a signal with subscribers 4 and 9: removing 4 twice
equals removing it once, and the second run reports false. -/
theorem claim10_witness :
    4 ∉ (Signal.unsubscribeRun 4 (⟨0, [4, 9]⟩ : SignalState Int)).1.subscribers ∧
    Signal.unsubscribeRun 4 (Signal.unsubscribeRun 4 (⟨0, [4, 9]⟩ : SignalState Int)).1 =
      ((Signal.unsubscribeRun 4 (⟨0, [4, 9]⟩ : SignalState Int)).1, false) :=
  claim10_unsubscribe_idempotent ⟨0, [4, 9]⟩ 4 (by decide)

/-! ### Errors the embedded JS fragments can raise -/

/-- The runtime errors the embedded code can produce: reading an
undeclared identifier, applying an operation to undefined, or an
explicitly thrown Error. -/
inductive JsError where
  | referenceError (name : String)
  | typeError (message : String)
  | thrown (message : String)
deriving DecidableEq

/-! ### Decimal rendering of whole numbers

JS renders the whole-number indices and counters in decimal when they are
concatenated into record ids.  The renderer is fuel-based so that it
reduces inside the kernel; one unit of fuel per digit is ample. -/

/-- One decimal digit character. -/
def digitChar : Nat → Char
  | 0 => '0' | 1 => '1' | 2 => '2' | 3 => '3' | 4 => '4'
  | 5 => '5' | 6 => '6' | 7 => '7' | 8 => '8' | 9 => '9'
  | _ => '*'

/-- Numeric value of a decimal digit character. -/
def digitVal (c : Char) : Nat := c.toNat - 48

/-- Decimal digit characters of a natural number, most significant first,
with explicit fuel. -/
def natDecimalAux : Nat → Nat → List Char
  | 0, _ => []
  | fuel + 1, n =>
    if n < 10 then [digitChar n]
    else natDecimalAux fuel (n / 10) ++ [digitChar (n % 10)]

/-- Model of the JS decimal rendering of a whole number. -/
def jsNatToString (n : Nat) : String := (natDecimalAux (n + 1) n).asString

/-- Value of a decimal digit string, most significant first. -/
def decimalVal (l : List Char) : Nat :=
  l.foldl (fun acc c => 10 * acc + digitVal c) 0

/-- One-step unfolding of the fuel-based renderer. -/
theorem natDecimalAux_succ (fuel n : Nat) :
    natDecimalAux (fuel + 1) n =
      if n < 10 then [digitChar n]
      else natDecimalAux fuel (n / 10) ++ [digitChar (n % 10)] := rfl

/-- The fuel-based digits are stable once the fuel covers the number. -/
theorem natDecimalAux_stable : ∀ n fuel fuel' : Nat, n ≤ fuel → n ≤ fuel' →
    natDecimalAux (fuel + 1) n = natDecimalAux (fuel' + 1) n := by
  intro n
  induction n using Nat.strong_induction_on with
  | _ n ih =>
    intro fuel fuel' hn hn'
    by_cases h10 : n < 10
    · rw [natDecimalAux_succ, natDecimalAux_succ, if_pos h10, if_pos h10]
    · rw [natDecimalAux_succ, natDecimalAux_succ, if_neg h10, if_neg h10]
      have hd : n / 10 < n := Nat.div_lt_self (by omega) (by omega)
      have hfe : fuel = (fuel - 1) + 1 := by omega
      have hfe' : fuel' = (fuel' - 1) + 1 := by omega
      rw [hfe, hfe', ih (n / 10) hd (fuel - 1) (fuel' - 1) (by omega) (by omega)]

/-- Value/digits round trip for the fuel-based renderer. -/
theorem decimalVal_natDecimalAux : ∀ n fuel : Nat, n ≤ fuel →
    decimalVal (natDecimalAux (fuel + 1) n) = n := by
  intro n
  induction n using Nat.strong_induction_on with
  | _ n ih =>
    intro fuel hn
    by_cases h10 : n < 10
    · rw [natDecimalAux_succ, if_pos h10]
      interval_cases n <;> rfl
    · rw [natDecimalAux_succ, if_neg h10]
      have hd : n / 10 < n := Nat.div_lt_self (by omega) (by omega)
      have hfe : fuel = (fuel - 1) + 1 := by omega
      have hih : decimalVal (natDecimalAux fuel (n / 10)) = n / 10 := by
        rw [hfe]
        exact ih (n / 10) hd (fuel - 1) (by omega)
      have hmod : digitVal (digitChar (n % 10)) = n % 10 := by
        have : n % 10 < 10 := Nat.mod_lt _ (by omega)
        interval_cases h : n % 10 <;> decide
      simp only [decimalVal, List.foldl_append, List.foldl_cons, List.foldl_nil]
      show 10 * decimalVal (natDecimalAux fuel (n / 10)) + digitVal (digitChar (n % 10)) = n
      rw [hih, hmod]
      omega

/-- The JS decimal rendering is injective on whole numbers. -/
theorem jsNatToString_injective : Function.Injective jsNatToString := by
  intro a b hab
  have hl : natDecimalAux (a + 1) a = natDecimalAux (b + 1) b := by
    have := congrArg String.data hab
    simpa [jsNatToString] using this
  have := congrArg decimalVal hl
  rwa [decimalVal_natDecimalAux a a (le_refl _),
    decimalVal_natDecimalAux b b (le_refl _)] at this

/-! ### The cleanup callback of the public entry point (claim C1)

The closure the first xml module returns reads the free identifier
`database`; the enclosing function binds the invocation's record map as
`context`, and neither the function body nor the module top level declares
`database`, so JS raises a ReferenceError the moment the closure runs. -/

/-- Identifiers the first xml module binds at its top level: the three
imports and the declared functions and constants. -/
def xmlModuleScope : List String :=
  ["Signal", "Record", "XMLParser", "parser", "xml", "createStream",
   "createIntermediateHtml", "parseElementAttributeValue",
   "interpolateAttributes", "interpolateNodes", "interpolateNodes3"]

/-- Identifiers of the xml function body that are visible to the returned
closure: the two parameters and the five local constants. -/
def xmlLocalScope : List String :=
  ["strings", "values", "context", "stream", "xml", "root", "unsubscribe"]

/-- Resolve an identifier against a lexical environment; an identifier
bound nowhere raises ReferenceError when evaluated. -/
def resolveIdent (env : List String) (name : String) : Except JsError Unit :=
  if name ∈ env then Except.ok () else Except.error (JsError.referenceError name)

/-- The cleanup-relevant view of one Record: the isTemplateVariable flag
and the registered unsubscribe handles. -/
structure CleanupRecord where
  isTemplateVariable : Bool
  unsubscribeHandles : List Nat
deriving DecidableEq

/-- Model of the cleanup closure returned by xml.  Its body evaluates the
identifier `database` first; only if that resolved would the
filter/filter/map/flat/forEach chain run, whose observable effect is the
list of invoked unsubscribe handles, in database order. -/
def runCleanup (database : List (String × CleanupRecord)) : Except JsError (List Nat) :=
  match resolveIdent (xmlLocalScope ++ xmlModuleScope) "database" with
  | Except.error e => Except.error e
  | Except.ok _ =>
    Except.ok (((((database.map Prod.snd).filter
      (fun record => record.isTemplateVariable)).filter
      (fun record => 0 < record.unsubscribeHandles.length)).map
      (fun record => record.unsubscribeHandles)).flatten)

/-- C1 (code bug): for every record database, each run of the cleanup
callback raises ReferenceError "database" — the closure reads an
identifier no enclosing scope declares, the invocation's map being bound
as `context` — so no unsubscribe handle is ever reached, on the first and
on every later invocation alike, contradicting the claimed error-free
idempotent cleanup. -/
theorem claim1_cleanup_reference_error (database : List (String × CleanupRecord)) :
    runCleanup database = Except.error (JsError.referenceError "database") := rfl

/-! ### The value model

The closed set of value shapes the template machinery stores and
dispatches on, mirroring what Record.type distinguishes.  Numbers carry
the JS NaN and infinity cases explicitly; functions and signals are
opaque references into stores. -/

/-- JS double restricted to what the sources compute: rationals plus NaN
and the signed infinities (parseFloat can produce any of these). -/
inductive JsNum where
  | nan
  | inf (negative : Bool)
  | val (q : ℚ)
deriving DecidableEq

/-- Embedded JS values. -/
inductive Content where
  | str (s : String)
  | num (n : JsNum)
  | jsBool (b : Bool)
  | null
  | undef
  | obj (fields : List (String × Content))
  | arr (items : List Content)
  | func (ref : Nat)
  | signalRef (ref : Nat)

/-- JS strict equality against undefined is an undefined-shape test. -/
def Content.isUndef : Content → Bool
  | Content.undef => true
  | _ => false

/-- Model of the Record.type getter on the embedded value shapes: typeof
for primitives, Array.isArray for arrays, constructor name otherwise. -/
def contentType : Content → String
  | Content.null => "null"
  | Content.undef => "undefined"
  | Content.str _ => "string"
  | Content.num _ => "number"
  | Content.jsBool _ => "boolean"
  | Content.func _ => "function"
  | Content.arr _ => "Array"
  | Content.obj _ => "Object"
  | Content.signalRef _ => "Signal"

/-- Model of the Record class fields the claims exercise: the id, the
captured content, the placement classification the intelligence argument
installs (none when the constructor got no intelligence), and the cleanup
list. -/
structure Rec where
  id : String
  content : Content
  classification : Option Classification := none
  unsubscribeHandles : List Nat := []

/-- Model of Map.prototype.set on an insertion-ordered association list:
replace in place when the key is present, else append at the end. -/
def jsMapSet (m : List (String × α)) (k : String) (v : α) : List (String × α) :=
  if (m.lookup k).isSome then m.map (fun p => if p.1 = k then (k, v) else p)
  else m ++ [(k, v)]

/-- Absent keys are looked up to none. -/
theorem lookup_eq_none_of_not_mem_keys {κ α : Type} [BEq κ] [LawfulBEq κ]
    {m : List (κ × α)} {k : κ}
    (h : k ∉ m.map Prod.fst) : m.lookup k = none := by
  induction m with
  | nil => rfl
  | cons p rest ih =>
    simp only [List.map_cons, List.mem_cons, not_or] at h
    cases p with
    | mk k0 v0 =>
      have hne : (k == k0) = false := by simpa using h.1
      simp only [List.lookup, hne]
      exact ih h.2

/-- Setting an absent key appends it. -/
theorem jsMapSet_append {α : Type} {m : List (String × α)} {k : String} (v : α)
    (h : k ∉ m.map Prod.fst) : jsMapSet m k v = m ++ [(k, v)] := by
  simp [jsMapSet, lookup_eq_none_of_not_mem_keys h]

/-! ### Marker Stream Builder (createStream and createIntermediateHtml) -/

/-- One entry of the processing stream: a raw template chunk or a record
reference. -/
inductive StreamEntry where
  | chunk (content : String)
  | ref (id : String)
deriving DecidableEq

/-- JS indexing into the value sequence: out of range reads undefined. -/
def valueAt (values : List Content) (i : Nat) : Content :=
  values.getD i Content.undef

/-- Model of the createStream loop with its running index and the stream
and context built so far: emit each literal chunk; whenever the value at
the index is not strictly undefined, store a Record classified against
the preceding literal under id "::" + index and emit a reference. -/
def createStreamGo (strings : List String) (values : List Content) (i : Nat)
    (stream : List StreamEntry) (context : List (String × Rec)) :
    List StreamEntry × List (String × Rec) :=
  match strings with
  | [] => (stream, context)
  | s :: rest =>
    let content := valueAt values i
    if content.isUndef then
      createStreamGo rest values (i + 1) (stream ++ [StreamEntry.chunk s]) context
    else
      let recordId := "::" ++ jsNatToString i
      createStreamGo rest values (i + 1)
        (stream ++ [StreamEntry.chunk s, StreamEntry.ref recordId])
        (jsMapSet context recordId
          { id := recordId, content := content,
            classification := some (decodeAttribute s) })

/-- Model of createStream. -/
def createStream (strings : List String) (values : List Content) :
    List StreamEntry × List (String × Rec) :=
  createStreamGo strings values 0 [] []

/-- Model of createIntermediateHtml: dereference each stream entry and
emit one markup piece according to its classification flags; a reference
whose record is missing would destructure undefined, a TypeError; a
record without placement flags matches no branch and emits nothing. -/
def createIntermediateHtml (stream : List StreamEntry)
    (context : List (String × Rec)) : Except JsError (List String) :=
  match stream with
  | [] => Except.ok []
  | StreamEntry.chunk s :: rest =>
    (createIntermediateHtml rest context).map (fun pieces => s :: pieces)
  | StreamEntry.ref id :: rest =>
    match context.lookup id with
    | none => Except.error (JsError.typeError "cannot destructure undefined")
    | some record =>
      match record.classification with
      | some (Classification.attributeValueAssignment _ _) =>
        (createIntermediateHtml rest context).map (fun pieces => id :: pieces)
      | some Classification.attributeDomain =>
        (createIntermediateHtml rest context).map
          (fun pieces => (id ++ "=\"\"") :: pieces)
      | some Classification.elementDomain =>
        (createIntermediateHtml rest context).map
          (fun pieces => ("<!--" ++ id ++ "-->") :: pieces)
      | none => createIntermediateHtml rest context

/-- The id of a reference entry, for collecting the emitted markers. -/
def streamRefId : StreamEntry → Option String
  | StreamEntry.chunk _ => none
  | StreamEntry.ref id => some id

/-- The indices of the literal sequence at which the interpolated value
is defined. -/
def definedIndices (strings : List String) (values : List Content) : List Nat :=
  (List.range strings.length).filter (fun i => !(valueAt values i).isUndef)

/-- The stream suffix the createStream loop appends from index i on,
described without the accumulator. -/
def streamPiece (values : List Content) : Nat → List String → List StreamEntry
  | _, [] => []
  | i, s :: rest =>
    if (valueAt values i).isUndef then
      StreamEntry.chunk s :: streamPiece values (i + 1) rest
    else
      StreamEntry.chunk s :: StreamEntry.ref ("::" ++ jsNatToString i) ::
        streamPiece values (i + 1) rest

/-- The records the createStream loop appends from index i on, described
without the accumulator. -/
def recsPiece (values : List Content) : Nat → List String → List (String × Rec)
  | _, [] => []
  | i, s :: rest =>
    if (valueAt values i).isUndef then recsPiece values (i + 1) rest
    else
      ("::" ++ jsNatToString i,
        { id := "::" ++ jsNatToString i, content := valueAt values i,
          classification := some (decodeAttribute s) }) ::
        recsPiece values (i + 1) rest

/-- Strings with equal character data are equal. -/
theorem string_data_injective {s t : String} (h : s.data = t.data) : s = t := by
  cases s
  cases t
  exact congrArg String.mk h

/-- Slot record ids determine their index. -/
theorem slotId_injective {i j : Nat}
    (h : "::" ++ jsNatToString i = "::" ++ jsNatToString j) : i = j := by
  have hdata := congrArg String.data h
  rw [String.data_append, String.data_append] at hdata
  have h2 : (jsNatToString i).data = (jsNatToString j).data :=
    List.append_cancel_left hdata
  exact jsNatToString_injective (string_data_injective h2)

/-- The accumulator form of the createStream loop appends exactly the
piece descriptions, as long as the context keys so far are slot ids of
earlier indices. -/
theorem createStreamGo_spec (values : List Content) : ∀ (strings : List String)
    (i : Nat) (stream : List StreamEntry) (context : List (String × Rec)),
    (∀ k ∈ context.map Prod.fst, ∃ j, j < i ∧ k = "::" ++ jsNatToString j) →
    createStreamGo strings values i stream context =
      (stream ++ streamPiece values i strings, context ++ recsPiece values i strings) := by
  intro strings
  induction strings with
  | nil =>
    intro i stream context _
    simp [createStreamGo, streamPiece, recsPiece]
  | cons s rest ih =>
    intro i stream context hctx
    by_cases hu : (valueAt values i).isUndef = true
    · rw [show createStreamGo (s :: rest) values i stream context =
        createStreamGo rest values (i + 1) (stream ++ [StreamEntry.chunk s]) context by
          simp [createStreamGo, hu]]
      rw [ih (i + 1) (stream ++ [StreamEntry.chunk s]) context
        (fun k hk => by obtain ⟨j, hj, hkj⟩ := hctx k hk; exact ⟨j, by omega, hkj⟩)]
      simp [streamPiece, recsPiece, hu]
    · have hnotmem : ("::" ++ jsNatToString i) ∉ context.map Prod.fst := by
        intro hmem
        obtain ⟨j, hj, hkj⟩ := hctx _ hmem
        exact absurd (slotId_injective hkj.symm) (by omega)
      rw [show createStreamGo (s :: rest) values i stream context =
        createStreamGo rest values (i + 1)
          (stream ++ [StreamEntry.chunk s, StreamEntry.ref ("::" ++ jsNatToString i)])
          (jsMapSet context ("::" ++ jsNatToString i)
            { id := "::" ++ jsNatToString i, content := valueAt values i,
              classification := some (decodeAttribute s) }) by
          simp [createStreamGo, hu]]
      rw [jsMapSet_append _ hnotmem]
      rw [ih (i + 1) _ _ (fun k hk => by
        rw [List.map_append, List.mem_append] at hk
        rcases hk with hk | hk
        · obtain ⟨j, hj, hkj⟩ := hctx k hk
          exact ⟨j, by omega, hkj⟩
        · simp only [List.map_cons, List.map_nil, List.mem_singleton] at hk
          exact ⟨i, by omega, hk⟩)]
      simp [streamPiece, recsPiece, hu]

/-- The reference ids of the stream piece are the slot ids of the defined
indices, in index order. -/
theorem streamPiece_refs (values : List Content) : ∀ (strings : List String) (i : Nat),
    (streamPiece values i strings).filterMap streamRefId =
      ((List.range' i strings.length).filter
        (fun j => !(valueAt values j).isUndef)).map
        (fun j => "::" ++ jsNatToString j) := by
  intro strings
  induction strings with
  | nil => intro i; rfl
  | cons s rest ih =>
    intro i
    rw [List.length_cons, List.range'_succ, List.filter_cons]
    by_cases hu : (valueAt values i).isUndef = true
    · simp only [streamPiece, hu, if_pos, List.filterMap_cons]
      simp only [streamRefId, hu, Bool.not_true, Bool.false_eq_true, if_false]
      exact ih (i + 1)
    · simp only [streamPiece, hu, Bool.false_eq_true, if_false, List.filterMap_cons]
      simp only [streamRefId, Bool.not_false, if_true, List.map_cons]
      rw [ih (i + 1)]

/-- The record keys of the records piece are the slot ids of the defined
indices, in index order. -/
theorem recsPiece_keys (values : List Content) : ∀ (strings : List String) (i : Nat),
    (recsPiece values i strings).map Prod.fst =
      ((List.range' i strings.length).filter
        (fun j => !(valueAt values j).isUndef)).map
        (fun j => "::" ++ jsNatToString j) := by
  intro strings
  induction strings with
  | nil => intro i; rfl
  | cons s rest ih =>
    intro i
    rw [List.length_cons, List.range'_succ, List.filter_cons]
    by_cases hu : (valueAt values i).isUndef = true
    · simp only [recsPiece, hu, if_pos, Bool.not_true, Bool.false_eq_true, if_false]
      exact ih (i + 1)
    · simp only [recsPiece, hu, Bool.false_eq_true, if_false, Bool.not_false,
        if_true, List.map_cons]
      rw [ih (i + 1)]

/-- Every record the records piece creates carries a placement
classification. -/
theorem recsPiece_classification (values : List Content) : ∀ (strings : List String)
    (i : Nat) (k : String) (r : Rec), (k, r) ∈ recsPiece values i strings →
    r.classification.isSome := by
  intro strings
  induction strings with
  | nil => intro i k r h; cases h
  | cons s rest ih =>
    intro i k r h
    by_cases hu : (valueAt values i).isUndef = true
    · simp only [recsPiece, hu, if_pos] at h
      exact ih (i + 1) k r h
    · simp only [recsPiece, hu, Bool.false_eq_true, if_false, List.mem_cons] at h
      rcases h with h | h
      · cases h
        rfl
      · exact ih (i + 1) k r h

/-- The stream piece holds one chunk per literal plus one reference per
defined index. -/
theorem streamPiece_length (values : List Content) : ∀ (strings : List String) (i : Nat),
    (streamPiece values i strings).length =
      strings.length + ((List.range' i strings.length).filter
        (fun j => !(valueAt values j).isUndef)).length := by
  intro strings
  induction strings with
  | nil => intro i; rfl
  | cons s rest ih =>
    intro i
    rw [List.length_cons, List.range'_succ, List.filter_cons]
    by_cases hu : (valueAt values i).isUndef = true
    · rw [show (!(valueAt values i).isUndef) = false by simp [hu]]
      simp only [streamPiece, hu, if_pos, List.length_cons, Bool.false_eq_true, if_false]
      rw [ih (i + 1)]
      omega
    · rw [show (!(valueAt values i).isUndef) = true by simp [hu]]
      simp only [streamPiece, hu, Bool.false_eq_true, if_false, if_true,
        List.length_cons]
      rw [ih (i + 1)]
      omega

/-- A key present among the keys is looked up to something. -/
theorem lookup_isSome_of_mem_keys {κ α : Type} [BEq κ] [LawfulBEq κ] [DecidableEq κ]
    {m : List (κ × α)} {k : κ}
    (h : k ∈ m.map Prod.fst) : (m.lookup k).isSome := by
  induction m with
  | nil => cases h
  | cons p rest ih =>
    cases p with
    | mk k0 v0 =>
      by_cases hk : k = k0
      · subst hk
        simp [List.lookup]
      · simp only [List.map_cons, List.mem_cons] at h
        rcases h with h | h
        · exact absurd h hk
        · have hne : (k == k0) = false := by simpa using hk
          simp only [List.lookup, hne]
          exact ih h

/-- Whatever lookup finds is an entry of the list. -/
theorem mem_of_lookup_eq_some {κ α : Type} [BEq κ] [LawfulBEq κ] [DecidableEq κ]
    {m : List (κ × α)} {k : κ} {v : α}
    (h : m.lookup k = some v) : (k, v) ∈ m := by
  induction m with
  | nil => cases h
  | cons p rest ih =>
    cases p with
    | mk k0 v0 =>
      by_cases hk : k = k0
      · subst hk
        simp only [List.lookup, beq_self_eq_true] at h
        cases h
        exact List.mem_cons_self _ _
      · have hne : (k == k0) = false := by simpa using hk
        simp only [List.lookup, hne] at h
        exact List.mem_cons_of_mem _ (ih h)

/-- When every referenced record is present and classified, the
intermediate markup succeeds and emits exactly one piece per stream
entry. -/
theorem createIntermediateHtml_length (context : List (String × Rec)) :
    ∀ stream : List StreamEntry,
    (∀ id, StreamEntry.ref id ∈ stream → ∃ r, context.lookup id = some r ∧
      r.classification.isSome) →
    ∃ pieces, createIntermediateHtml stream context = Except.ok pieces ∧
      pieces.length = stream.length := by
  intro stream
  induction stream with
  | nil => intro _; exact ⟨[], rfl, rfl⟩
  | cons entry rest ih =>
    intro h
    have hrest := fun id hid => h id (List.mem_cons_of_mem _ hid)
    obtain ⟨pieces, hps, hlen⟩ := ih hrest
    cases entry with
    | chunk s =>
      refine ⟨s :: pieces, ?_, by simp [hlen]⟩
      simp [createIntermediateHtml, hps, Except.map]
    | ref id =>
      obtain ⟨r, hlook, hcls⟩ := h id (List.mem_cons_self _ _)
      obtain ⟨c, hc⟩ := Option.isSome_iff_exists.mp hcls
      cases c with
      | attributeValueAssignment a b =>
        refine ⟨id :: pieces, ?_, by simp [hlen]⟩
        simp [createIntermediateHtml, hlook, hc, hps, Except.map]
      | attributeDomain =>
        refine ⟨(id ++ "=\"\"") :: pieces, ?_, by simp [hlen]⟩
        simp [createIntermediateHtml, hlook, hc, hps, Except.map]
      | elementDomain =>
        refine ⟨("<!--" ++ id ++ "-->") :: pieces, ?_, by simp [hlen]⟩
        simp [createIntermediateHtml, hlook, hc, hps, Except.map]

/-- C3: the stream builder emits exactly one marker reference and creates
exactly one Record (with id "::" + i) for each index whose value is
defined, in index order; undefined values contribute neither a marker nor
a Record; and the intermediate markup emits exactly one piece per stream
entry, so the number of emitted marker pieces equals the number of
defined interpolated values. -/
theorem claim3_marker_per_defined_value (strings : List String) (values : List Content) :
    ((createStream strings values).1.filterMap streamRefId =
      (definedIndices strings values).map (fun i => "::" ++ jsNatToString i)) ∧
    ((createStream strings values).2.map Prod.fst =
      (definedIndices strings values).map (fun i => "::" ++ jsNatToString i)) ∧
    ∃ pieces,
      createIntermediateHtml (createStream strings values).1
        (createStream strings values).2 = Except.ok pieces ∧
      pieces.length = strings.length + (definedIndices strings values).length := by
  have hgo := createStreamGo_spec values strings 0 [] [] (fun k hk => by cases hk)
  have hstream : (createStream strings values).1 = streamPiece values 0 strings := by
    rw [createStream, hgo]
    simp
  have hctx : (createStream strings values).2 = recsPiece values 0 strings := by
    rw [createStream, hgo]
    simp
  have hrange : List.range strings.length = List.range' 0 strings.length :=
    List.range_eq_range' _
  have hdef : definedIndices strings values =
      (List.range' 0 strings.length).filter (fun j => !(valueAt values j).isUndef) := by
    rw [definedIndices, hrange]
  refine ⟨?_, ?_, ?_⟩
  · rw [hstream, hdef]
    exact streamPiece_refs values strings 0
  · rw [hctx, hdef]
    exact recsPiece_keys values strings 0
  · have hlook : ∀ id, StreamEntry.ref id ∈ (createStream strings values).1 →
        ∃ r, (createStream strings values).2.lookup id = some r ∧
          r.classification.isSome := by
      intro id hid
      have hidmem : id ∈ (createStream strings values).1.filterMap streamRefId := by
        exact List.mem_filterMap.mpr ⟨StreamEntry.ref id, hid, rfl⟩
      have hkey : id ∈ (createStream strings values).2.map Prod.fst := by
        rw [hctx, recsPiece_keys values strings 0]
        rw [hstream, streamPiece_refs values strings 0] at hidmem
        exact hidmem
      obtain ⟨r, hr⟩ := Option.isSome_iff_exists.mp (lookup_isSome_of_mem_keys hkey)
      refine ⟨r, hr, ?_⟩
      have hmem := mem_of_lookup_eq_some hr
      rw [hctx] at hmem
      exact recsPiece_classification values strings 0 id r hmem
    obtain ⟨pieces, hps, hlen⟩ :=
      createIntermediateHtml_length (createStream strings values).2
        (createStream strings values).1 hlook
    refine ⟨pieces, hps, ?_⟩
    rw [hlen, hstream, streamPiece_length values strings 0, hdef]

/-! ### JS numeric string parsing (parseFloat and ToNumber)

The attribute upgrade path calls parseFloat and isNaN on literal
attribute values; isNaN coerces with ToNumber first.  Both are modelled
on character lists. -/

/-- Positional value of a digit list in a given base. -/
def baseVal (b : Nat) (digToVal : Char → Nat) (l : List Char) : Nat :=
  l.foldl (fun acc c => b * acc + digToVal c) 0

/-- Hexadecimal digit test. -/
def isHexDigit (c : Char) : Bool :=
  c.isDigit || ('a' ≤ c && c ≤ 'f') || ('A' ≤ c && c ≤ 'F')

/-- Hexadecimal digit value. -/
def hexDigitVal (c : Char) : Nat :=
  if c.isDigit then c.toNat - 48
  else if 'a' ≤ c then c.toNat - 87
  else c.toNat - 55

/-- Mantissa value of integer digits plus fraction digits. -/
def mantissaVal (ints fracs : List Char) : ℚ :=
  (decimalVal ints : ℚ) + (decimalVal fracs : ℚ) / (10 : ℚ) ^ fracs.length

/-- Model of JS parseFloat: skip leading whitespace, read an optional
sign, then the longest prefix shaped like Infinity or a decimal literal
(digits and/or fraction, then a well-formed exponent if present);
trailing garbage is ignored and no valid prefix yields NaN. -/
def jsParseFloat (l : List Char) : JsNum :=
  let l1 := l.dropWhile jsWs
  let signSplit : Bool × List Char :=
    match l1 with
    | '-' :: r => (true, r)
    | '+' :: r => (false, r)
    | _ => (false, l1)
  let neg := signSplit.1
  let l2 := signSplit.2
  if ("Infinity".toList).isPrefixOf l2 then JsNum.inf neg
  else
    let ints := l2.takeWhile Char.isDigit
    let r1 := l2.dropWhile Char.isDigit
    let fracSplit : List Char × List Char :=
      match r1 with
      | '.' :: r => (r.takeWhile Char.isDigit, r.dropWhile Char.isDigit)
      | _ => ([], r1)
    let fracs := fracSplit.1
    let r2 := fracSplit.2
    if ints.isEmpty && fracs.isEmpty then JsNum.nan
    else
      let expVal : Int :=
        match r2 with
        | e :: rest =>
          if e == 'e' || e == 'E' then
            match rest with
            | '-' :: ds =>
              if (ds.takeWhile Char.isDigit).isEmpty then 0
              else -(decimalVal (ds.takeWhile Char.isDigit) : Int)
            | '+' :: ds =>
              if (ds.takeWhile Char.isDigit).isEmpty then 0
              else (decimalVal (ds.takeWhile Char.isDigit) : Int)
            | ds =>
              if (ds.takeWhile Char.isDigit).isEmpty then 0
              else (decimalVal (ds.takeWhile Char.isDigit) : Int)
          else 0
        | [] => 0
      let q := mantissaVal ints fracs * (10 : ℚ) ^ expVal
      JsNum.val (if neg then -q else q)

/-- Complete decimal literal (digits, optional fraction, optional
exponent), consuming the whole input, as ToNumber requires. -/
def parseFullDecimal (u : List Char) : Option ℚ :=
  let ints := u.takeWhile Char.isDigit
  let r1 := u.dropWhile Char.isDigit
  let fracSplit : List Char × List Char :=
    match r1 with
    | '.' :: r => (r.takeWhile Char.isDigit, r.dropWhile Char.isDigit)
    | _ => ([], r1)
  let fracs := fracSplit.1
  let r2 := fracSplit.2
  if ints.isEmpty && fracs.isEmpty then none
  else
    match r2 with
    | [] => some (mantissaVal ints fracs)
    | e :: rest =>
      if e == 'e' || e == 'E' then
        let expSplit : Bool × List Char :=
          match rest with
          | '-' :: ds => (true, ds)
          | '+' :: ds => (false, ds)
          | ds => (false, ds)
        let ds := expSplit.2
        if !ds.isEmpty && ds.all Char.isDigit then
          let ev : Int := if expSplit.1 then -(decimalVal ds : Int) else (decimalVal ds : Int)
          some (mantissaVal ints fracs * (10 : ℚ) ^ ev)
        else none
      else none

/-- Signed decimal-or-Infinity branch of ToNumber. -/
def jsToNumberDecimal (t : List Char) : JsNum :=
  let signSplit : Bool × List Char :=
    match t with
    | '-' :: r => (true, r)
    | '+' :: r => (false, r)
    | _ => (false, t)
  let neg := signSplit.1
  let u := signSplit.2
  if u = "Infinity".toList then JsNum.inf neg
  else
    match parseFullDecimal u with
    | some q => JsNum.val (if neg then -q else q)
    | none => JsNum.nan

/-- Model of JS ToNumber on a string: trim; empty is 0; an unsigned
0x/0o/0b radix literal; otherwise an optional sign followed by Infinity
or a complete decimal literal; anything else is NaN. -/
def jsToNumber (l : List Char) : JsNum :=
  let t := jsTrim l
  if t.isEmpty then JsNum.val 0
  else
    match t with
    | '0' :: x :: rest =>
      if (x == 'x' || x == 'X') && !rest.isEmpty && rest.all isHexDigit then
        JsNum.val (baseVal 16 hexDigitVal rest)
      else if (x == 'o' || x == 'O') && !rest.isEmpty &&
          rest.all (fun c => '0' ≤ c && c ≤ '7') then
        JsNum.val (baseVal 8 (fun c => c.toNat - 48) rest)
      else if (x == 'b' || x == 'B') && !rest.isEmpty &&
          rest.all (fun c => c == '0' || c == '1') then
        JsNum.val (baseVal 2 (fun c => c.toNat - 48) rest)
      else jsToNumberDecimal t
    | _ => jsToNumberDecimal t

/-- NaN test on the embedded number shape. -/
def jsIsNaN : JsNum → Bool
  | JsNum.nan => true
  | _ => false

/-- Model of parseElementAttributeValue: for strings, a percent sign
anywhere produces a value/unit pair via parseFloat, a string whose
ToNumber coercion is not NaN produces the parseFloat number, and any
other string — like every non-string value — is returned unchanged. -/
def parseElementAttributeValue (value : Content) : Content :=
  match value with
  | Content.str s =>
    if s.toList.contains '%' then
      Content.obj [("value", Content.num (jsParseFloat s.toList)),
        ("unit", Content.str "%")]
    else if !(jsIsNaN (jsToNumber s.toList)) then
      Content.num (jsParseFloat s.toList)
    else Content.str s
  | v => v

/-- Sanity: non-numeric strings stay strings, the empty string coerces to
0 and hence becomes parseFloat of "" which is NaN, and a percent string
that is not numeric still becomes a pair. -/
example : parseElementAttributeValue (Content.str "red") =
    Content.str "red" := rfl

example : parseElementAttributeValue (Content.str "") =
    Content.num JsNum.nan := rfl

example : parseElementAttributeValue (Content.str "a%") =
    Content.obj [("value", Content.num JsNum.nan), ("unit", Content.str "%")] := rfl

example : jsParseFloat "200".toList = JsNum.val 200 := by
  show JsNum.val (mantissaVal ['2', '0', '0'] [] * (10 : ℚ) ^ (0 : Int)) =
    JsNum.val 200
  have h1 : decimalVal ['2', '0', '0'] = 200 := rfl
  have h2 : decimalVal [] = 0 := rfl
  norm_num [mantissaVal, h1, h2]

/-! ### Attribute Interpolation Engine, first variant (claims C7 and C8)

interpolateAttributes walks the tree; per node it loops over the
attribute array, upgrading plain attributes in place, expanding spread
markers into staged insertions and deleting the marker slot (a JS delete
leaves a hole, modelled as none); the staged splices run after the loop.
The tree walk itself belongs to the missing XMLParser collaborator, so
the per-node behavior is modelled directly on one node's attribute
array. -/

/-- Prefix test modelling String.prototype.startsWith. -/
def jsStartsWith (s pre : String) : Bool := pre.toList.isPrefixOf s.toList

/-- An attribute: name and value. -/
structure Attr where
  name : String
  value : Content

/-- State the first engine threads: the process-wide signal id counter
(generateId starts at 1), the signal store, and the record database. -/
structure Eng1State where
  nextId : Nat
  signals : List (Nat × Content)
  database : List (String × Rec)

/-- Model of new Signal(value): allocate the next id and store the
value. -/
def newSignal (st : Eng1State) (v : Content) : Nat × Eng1State :=
  (st.nextId,
   { st with nextId := st.nextId + 1, signals := st.signals ++ [(st.nextId, v)] })

/-- The id string of a signal, as its id getter produces. -/
def signalIdString (n : Nat) : String := "id" ++ jsNatToString n

/-- Model of the spread-expansion loop: for each field, in enumeration
order, create a signal holding the field value, register a Record (id
marker-field, attribute-value-assignment classification with the
capability flag, raw field value as content) and stage the new attribute
for insertion at the marker index plus the running local index, which
starts at 1. -/
def spreadFields (origName : String) (markerIdx : Nat) :
    Eng1State → Nat → List (String × Content) → Eng1State × List (Nat × Attr)
  | st, _, [] => (st, [])
  | st, localIndex, (attributeName, content) :: rest =>
    let alloc := newSignal st content
    let recordId := origName ++ "-" ++ attributeName
    let newRec : Rec :=
      { id := recordId, content := content,
        classification := some (Classification.attributeValueAssignment attributeName
          ("is" ++ capitalizeJS attributeName ++ "Attribute")) }
    let st2 := { alloc.2 with database := jsMapSet alloc.2.database recordId newRec }
    let restRes := spreadFields origName markerIdx st2 (localIndex + 1) rest
    (restRes.1,
     (markerIdx + localIndex, Attr.mk attributeName (Content.signalRef alloc.1)) ::
       restRes.2)

/-- Model of the attribute loop of the first engine: one slot per input
attribute (the in-place upgraded attribute, or none for the hole a JS
delete leaves), plus the staged insertions in push order.  A name that
starts with "::" is a spread reference; it expands only when its record
exists and is object-typed (its content has the Object shape), and its
slot is deleted either way.  Any other attribute is upgraded: its value
is parsed, wrapped in a fresh signal, and a Record for the signal is
registered under the signal's id. -/
def interpAttrsLoop : Eng1State → Nat → List Attr →
    Eng1State × List (Option Attr) × List (Nat × Attr)
  | st, _, [] => (st, [], [])
  | st, i, attrb :: rest =>
    if jsStartsWith attrb.name "::" then
      let expanded :=
        match List.lookup attrb.name st.database with
        | some packet =>
          match packet.content with
          | Content.obj fields => spreadFields attrb.name i st 1 fields
          | _ => (st, [])
        | none => (st, [])
      let restRes := interpAttrsLoop expanded.1 (i + 1) rest
      (restRes.1, none :: restRes.2.1, expanded.2 ++ restRes.2.2)
    else
      let value := parseElementAttributeValue attrb.value
      let alloc := newSignal st value
      let newRec : Rec :=
        { id := signalIdString alloc.1, content := Content.signalRef alloc.1 }
      let st2 :=
        { alloc.2 with
          database := jsMapSet alloc.2.database (signalIdString alloc.1) newRec }
      let restRes := interpAttrsLoop st2 (i + 1) rest
      (restRes.1,
       some (Attr.mk attrb.name (Content.signalRef alloc.1)) :: restRes.2.1,
       restRes.2.2)

/-- Model of splice(pos, 0, x): insert at the position, clamped to the
length as JS does. -/
def spliceInsert (l : List (Option Attr)) (pos : Nat) (x : Attr) : List (Option Attr) :=
  List.insertIdx (min pos l.length) (some x) l

/-- Apply the staged insertions in order. -/
def applySplices : List (Option Attr) → List (Nat × Attr) → List (Option Attr)
  | l, [] => l
  | l, (pos, a) :: rest => applySplices (spliceInsert l pos a) rest

/-- Model of the first interpolateAttributes restricted to one node: run
the attribute loop, then apply the staged splices. -/
def interpolateAttributesNode (st : Eng1State) (attrs : List Attr) :
    Eng1State × List (Option Attr) :=
  let res := interpAttrsLoop st 0 attrs
  (res.1, applySplices res.2.1 res.2.2)

/-! ### Association list and splice support lemmas -/

/-- A successful lookup survives appending entries on the right. -/
theorem lookup_append_of_some {κ α : Type} [BEq κ] [LawfulBEq κ]
    {m m2 : List (κ × α)} {k : κ} {v : α}
    (h : m.lookup k = some v) : (m ++ m2).lookup k = some v := by
  induction m with
  | nil => cases h
  | cons p rest ih =>
    cases p with
    | mk k0 v0 =>
      by_cases hk : (k == k0) = true
      · simp only [List.cons_append, List.lookup, hk] at h ⊢
        exact h
      · have hk2 : (k == k0) = false := by simpa using hk
        simp only [List.cons_append, List.lookup, hk2] at h ⊢
        exact ih h

/-- A failed lookup defers to the appended entries. -/
theorem lookup_append_of_none {κ α : Type} [BEq κ] [LawfulBEq κ]
    {m m2 : List (κ × α)} {k : κ}
    (h : m.lookup k = none) : (m ++ m2).lookup k = m2.lookup k := by
  induction m with
  | nil => rfl
  | cons p rest ih =>
    cases p with
    | mk k0 v0 =>
      by_cases hk : (k == k0) = true
      · simp only [List.lookup, hk] at h
        exact Option.noConfusion h
      · have hk2 : (k == k0) = false := by simpa using hk
        simp only [List.cons_append, List.lookup, hk2] at h ⊢
        exact ih h

/-- The in-place replacement of one key leaves other lookups unchanged. -/
theorem lookup_map_replace {α : Type} (m : List (String × α)) (k k2 : String) (v : α)
    (h : k ≠ k2) :
    (m.map (fun p => if p.1 = k2 then (k2, v) else p)).lookup k = m.lookup k := by
  induction m with
  | nil => rfl
  | cons p rest ih =>
    cases p with
    | mk k0 v0 =>
      by_cases h0 : k0 = k2
      · subst h0
        have hk : (k == k0) = false := by simpa using h
        simp only [List.map_cons]
        simp only [if_true]
        simp only [List.lookup, hk]
        exact ih
      · simp only [List.map_cons]
        rw [if_neg h0]
        simp only [List.lookup]
        cases hk : (k == k0)
        · simp only [hk]
          exact ih
        · simp only [hk]

/-- Map set of one key leaves the lookup of every other key unchanged. -/
theorem lookup_jsMapSet_ne {α : Type} {m : List (String × α)} {k k2 : String} {v : α}
    (h : k ≠ k2) : (jsMapSet m k2 v).lookup k = m.lookup k := by
  unfold jsMapSet
  by_cases hs : (m.lookup k2).isSome
  · rw [if_pos hs]
    exact lookup_map_replace m k k2 v h
  · rw [if_neg hs]
    cases hmk : m.lookup k with
    | some w => exact lookup_append_of_some hmk
    | none =>
      rw [lookup_append_of_none hmk]
      have hk : (k == k2) = false := by simpa using h
      simp [List.lookup, hk]

/-- Map set makes its own key look up to the new value. -/
theorem lookup_jsMapSet_self {α : Type} (m : List (String × α)) (k : String) (v : α) :
    (jsMapSet m k v).lookup k = some v := by
  unfold jsMapSet
  by_cases hs : (m.lookup k).isSome
  · rw [if_pos hs]
    induction m with
    | nil => simp at hs
    | cons p rest ih =>
      cases p with
      | mk k0 v0 =>
        by_cases hk : (k == k0) = true
        · have hke : k0 = k := (eq_of_beq hk).symm
          subst hke
          simp only [List.map_cons]
          simp only [if_true]
          simp [List.lookup]
        · have hk2 : (k == k0) = false := by simpa using hk
          have hne : ¬ k0 = k := by
            intro hcon
            subst hcon
            simp at hk2
          simp only [List.lookup, hk2] at hs
          simp only [List.map_cons]
          rw [if_neg hne]
          simp only [List.lookup, hk2]
          exact ih hs
  · rw [if_neg hs]
    have hnone : m.lookup k = none := by
      cases hmk : m.lookup k with
      | some w => rw [hmk] at hs; simp at hs
      | none => rfl
    rw [lookup_append_of_none hnone]
    simp [List.lookup]

/-- Insertion below the length is a take/cons/drop split. -/
theorem insertIdx_eq_take_cons_drop {α : Type} (x : α) :
    ∀ (l : List α) (p : Nat), p ≤ l.length →
    List.insertIdx p x l = l.take p ++ x :: l.drop p := by
  intro l
  induction l with
  | nil =>
    intro p hp
    simp only [List.length_nil, Nat.le_zero] at hp
    subst hp
    rfl
  | cons a rest ih =>
    intro p hp
    cases p with
    | zero => rfl
    | succ q =>
      rw [List.insertIdx_succ_cons]
      simp only [List.take_succ_cons, List.drop_succ_cons, List.cons_append]
      rw [ih q (by simpa using hp)]

/-- The staged entries of a run of consecutive insertion positions. -/
def stagedFrom (p : Nat) : List Attr → List (Nat × Attr)
  | [] => []
  | x :: rest => (p, x) :: stagedFrom (p + 1) rest

/-- Applying consecutively positioned staged insertions splices the block
in at the first position. -/
theorem applySplices_stagedFrom : ∀ (xs : List Attr) (l : List (Option Attr)) (p : Nat),
    p ≤ l.length →
    applySplices l (stagedFrom p xs) = l.take p ++ xs.map some ++ l.drop p := by
  intro xs
  induction xs with
  | nil =>
    intro l p hp
    simp [stagedFrom, applySplices]
  | cons x rest ih =>
    intro l p hp
    simp only [stagedFrom, applySplices, spliceInsert]
    rw [min_eq_left hp, insertIdx_eq_take_cons_drop _ l p hp]
    have hlen : p + 1 ≤ (l.take p ++ some x :: l.drop p).length := by
      simp only [List.length_append, List.length_take, List.length_cons,
        List.length_drop]
      omega
    rw [ih _ (p + 1) hlen]
    have htlen : (l.take p).length = p := by
      rw [List.length_take]
      omega
    have htake : (l.take p ++ some x :: l.drop p).take (p + 1) =
        l.take p ++ [some x] := by
      rw [show p + 1 = (l.take p).length + 1 by rw [htlen], List.take_append]
      rfl
    have hdrop : (l.take p ++ some x :: l.drop p).drop (p + 1) = l.drop p := by
      rw [show p + 1 = (l.take p).length + 1 by rw [htlen], List.drop_append]
      rfl
    rw [htake, hdrop]
    simp

/-! ### Engine-loop structure lemmas -/

/-- Well-formed engine state: every stored signal id is below the
counter. -/
def eng1WF (st : Eng1State) : Prop :=
  ∀ m ∈ st.signals.map Prod.fst, m < st.nextId

/-- The loop yields exactly one slot per attribute. -/
theorem interpAttrsLoop_slots_length : ∀ (attrs : List Attr) (st : Eng1State) (i : Nat),
    (interpAttrsLoop st i attrs).2.1.length = attrs.length := by
  intro attrs
  induction attrs with
  | nil => intro st i; rfl
  | cons a rest ih =>
    intro st i
    by_cases hs : jsStartsWith a.name "::" = true
    · simp only [interpAttrsLoop, hs, if_true, List.length_cons]
      rw [ih]
    · simp only [interpAttrsLoop, hs, Bool.false_eq_true, if_false, List.length_cons]
      rw [ih]

/-- spreadFields: staged entries, counter, signal store, and the monotone
growth of the state. -/
theorem spreadFields_spec (origName : String) (markerIdx : Nat) :
    ∀ (fields : List (String × Content)) (st : Eng1State) (li : Nat),
    (spreadFields origName markerIdx st li fields).2 =
      stagedFrom (markerIdx + li)
        ((fields.zip (List.range' st.nextId fields.length)).map
          (fun fr => Attr.mk fr.1.1 (Content.signalRef fr.2))) ∧
    (spreadFields origName markerIdx st li fields).1.nextId =
      st.nextId + fields.length ∧
    (spreadFields origName markerIdx st li fields).1.signals =
      st.signals ++ (List.range' st.nextId fields.length).zip (fields.map Prod.snd) := by
  intro fields
  induction fields with
  | nil =>
    intro st li
    refine ⟨rfl, rfl, by simp [spreadFields]⟩
  | cons fv rest ih =>
    intro st li
    cases fv with
    | mk fname fcontent =>
      obtain ⟨ih1, ih2, ih3⟩ := ih
        { nextId := st.nextId + 1,
          signals := st.signals ++ [(st.nextId, fcontent)],
          database := jsMapSet st.database (origName ++ "-" ++ fname)
            { id := origName ++ "-" ++ fname, content := fcontent,
              classification := some (Classification.attributeValueAssignment fname
                ("is" ++ capitalizeJS fname ++ "Attribute")) } } (li + 1)
      refine ⟨?_, ?_, ?_⟩
      · simp only [spreadFields, newSignal]
        rw [ih1]
        simp only [List.length_cons, List.range'_succ, List.zip_cons_cons,
          List.map_cons, stagedFrom]
        have : markerIdx + li + 1 = markerIdx + (li + 1) := by omega
        rw [this]
        rfl
      · simp only [spreadFields, newSignal]
        rw [ih2]
        dsimp only
        simp only [List.length_cons]
        omega
      · simp only [spreadFields, newSignal]
        rw [ih3]
        dsimp only
        simp only [List.length_cons, List.range'_succ, List.map_cons,
          List.zip_cons_cons, List.append_assoc, List.singleton_append]

/-- The loop splits over list append: states thread, slots and staged
entries concatenate, and the index advances by the prefix length. -/
theorem interpAttrsLoop_append : ∀ (xs ys : List Attr) (st : Eng1State) (i : Nat),
    interpAttrsLoop st i (xs ++ ys) =
      ((interpAttrsLoop (interpAttrsLoop st i xs).1 (i + xs.length) ys).1,
       (interpAttrsLoop st i xs).2.1 ++
         (interpAttrsLoop (interpAttrsLoop st i xs).1 (i + xs.length) ys).2.1,
       (interpAttrsLoop st i xs).2.2 ++
         (interpAttrsLoop (interpAttrsLoop st i xs).1 (i + xs.length) ys).2.2) := by
  intro xs
  induction xs with
  | nil =>
    intro ys st i
    simp [interpAttrsLoop]
  | cons a rest ih =>
    intro ys st i
    have hidx : i + 1 + rest.length = i + (rest.length + 1) := by omega
    by_cases hs : jsStartsWith a.name "::" = true
    · simp only [List.cons_append, interpAttrsLoop, hs, if_true, List.append_eq]
      rw [ih ys _ (i + 1)]
      simp only [List.length_cons, List.cons_append, List.append_assoc, hidx]
    · simp only [List.cons_append, interpAttrsLoop, hs, Bool.false_eq_true, if_false,
        List.append_eq]
      rw [ih ys _ (i + 1)]
      simp only [List.length_cons, List.cons_append, hidx]

/-- Appending after a fixed string is injective. -/
theorem append_right_injective (a : String) {b c : String} (h : a ++ b = a ++ c) :
    b = c := by
  have hd := congrArg String.data h
  rw [String.data_append, String.data_append] at hd
  exact string_data_injective (List.append_cancel_left hd)

/-- The dash-joined record ids of one spread collide only on equal field
names. -/
theorem dashId_injective (origName : String) {a b : String}
    (h : origName ++ "-" ++ a = origName ++ "-" ++ b) : a = b :=
  append_right_injective (origName ++ "-") h

/-- Spread record ids start with a colon. -/
theorem spread_recordId_head (origName f : String)
    (h : jsStartsWith origName "::" = true) :
    (origName ++ "-" ++ f).toList.head? = some ':' := by
  unfold jsStartsWith at h
  obtain ⟨t, ht⟩ := (List.isPrefixOf_iff_prefix.mp h)
  have h1 : (origName ++ "-" ++ f).toList =
      origName.toList ++ "-".toList ++ f.toList := by
    show (origName ++ "-" ++ f).data = origName.data ++ "-".data ++ f.data
    rw [String.data_append, String.data_append]
  rw [h1, ← ht]
  rfl

/-- Signal ids start with the letter i. -/
theorem signalIdString_head (n : Nat) : (signalIdString n).toList.head? = some 'i' := by
  have h1 : (signalIdString n).toList = "id".toList ++ (jsNatToString n).toList := by
    show ("id" ++ jsNatToString n).data = "id".data ++ (jsNatToString n).data
    rw [String.data_append]
  rw [h1]
  rfl

/-- Signal ids determine their number. -/
theorem signalIdString_injective {a b : Nat} (h : signalIdString a = signalIdString b) :
    a = b :=
  jsNatToString_injective (append_right_injective "id" h)

/-- spreadFields leaves the lookup of every key other than its dash ids
unchanged. -/
theorem spreadFields_db_other (origName : String) (markerIdx : Nat) :
    ∀ (fields : List (String × Content)) (st : Eng1State) (li : Nat) (k : String),
    (∀ f ∈ fields.map Prod.fst, k ≠ origName ++ "-" ++ f) →
    (spreadFields origName markerIdx st li fields).1.database.lookup k =
      st.database.lookup k := by
  intro fields
  induction fields with
  | nil => intro st li k _; rfl
  | cons fv rest ih =>
    intro st li k hk
    cases fv with
    | mk fname fcontent =>
      simp only [spreadFields, newSignal]
      rw [ih _ (li + 1) k (fun f hf => hk f (by simp [hf]))]
      dsimp only
      exact lookup_jsMapSet_ne (hk fname (by simp))

/-- spreadFields registers, for each field, a Record under the dash id
holding the raw field value and the attribute-value-assignment
classification with the capability flag. -/
theorem spreadFields_db_field (origName : String) (markerIdx : Nat) :
    ∀ (fields : List (String × Content)) (st : Eng1State) (li : Nat),
    (fields.map Prod.fst).Nodup →
    ∀ fv ∈ fields,
    (spreadFields origName markerIdx st li fields).1.database.lookup
        (origName ++ "-" ++ fv.1) =
      some { id := origName ++ "-" ++ fv.1, content := fv.2,
             classification := some (Classification.attributeValueAssignment fv.1
               ("is" ++ capitalizeJS fv.1 ++ "Attribute")) } := by
  intro fields
  induction fields with
  | nil => intro st li _ fv hfv; cases hfv
  | cons hd rest ih =>
    intro st li hnd fv hfv
    cases hd with
    | mk fname fcontent =>
      simp only [List.map_cons, List.nodup_cons] at hnd
      rcases List.mem_cons.mp hfv with hfv1 | hfv2
      · subst hfv1
        simp only [spreadFields, newSignal]
        rw [spreadFields_db_other origName markerIdx rest _ (li + 1) _
          (fun f hf => by
            intro hcon
            exact hnd.1 ((dashId_injective origName hcon) ▸ hf))]
        dsimp only
        exact lookup_jsMapSet_self _ _ _
      · simp only [spreadFields, newSignal]
        exact ih _ (li + 1) hnd.2 fv hfv2

/-- The loop only raises the counter and appends to the signal store,
with every appended key at least the starting counter. -/
theorem interpAttrsLoop_state : ∀ (attrs : List Attr) (st : Eng1State) (i : Nat),
    st.nextId ≤ (interpAttrsLoop st i attrs).1.nextId ∧
    ∃ δ, (interpAttrsLoop st i attrs).1.signals = st.signals ++ δ ∧
      (∀ m ∈ δ.map Prod.fst, st.nextId ≤ m) := by
  intro attrs
  induction attrs with
  | nil =>
    intro st i
    exact ⟨le_refl _, [], by simp [interpAttrsLoop], fun m hm => by cases hm⟩
  | cons a rest ih =>
    intro st i
    by_cases hs : jsStartsWith a.name "::" = true
    · simp only [interpAttrsLoop, hs, if_true]
      rcases hlk : List.lookup a.name st.database with _ | packet
      · simpa using ih st (i + 1)
      · rcases hpc : packet.content with s | n | b | _ | _ | fields | items | f | sr
        · dsimp only; rw [hpc]; simpa using ih st (i + 1)
        · dsimp only; rw [hpc]; simpa using ih st (i + 1)
        · dsimp only; rw [hpc]; simpa using ih st (i + 1)
        · dsimp only; rw [hpc]; simpa using ih st (i + 1)
        · dsimp only; rw [hpc]; simpa using ih st (i + 1)
        · dsimp only
          rw [hpc]
          dsimp only
          obtain ⟨hsp1, hsp2, hsp3⟩ := spreadFields_spec a.name i fields st 1
          obtain ⟨iha, δ, ihb, ihc⟩ :=
            ih (spreadFields a.name i st 1 fields).1 (i + 1)
          refine ⟨?_, (List.range' st.nextId fields.length).zip
            (fields.map Prod.snd) ++ δ, ?_, ?_⟩
          · rw [hsp2] at iha
            omega
          · rw [ihb, hsp3, List.append_assoc]
          · intro m hm
            rw [List.map_append, List.mem_append] at hm
            rcases hm with hm | hm
            · obtain ⟨⟨m1, m2⟩, hmem, hfst⟩ := List.mem_map.mp hm
              obtain ⟨hr, -⟩ := List.of_mem_zip hmem
              obtain ⟨j, hj, hmj⟩ := List.mem_range'.mp hr
              subst hfst
              omega
            · have := ihc m hm
              rw [hsp2] at this
              omega
        · dsimp only; rw [hpc]; simpa using ih st (i + 1)
        · dsimp only; rw [hpc]; simpa using ih st (i + 1)
        · dsimp only; rw [hpc]; simpa using ih st (i + 1)
    · simp only [interpAttrsLoop, hs, Bool.false_eq_true, if_false]
      dsimp only [newSignal]
      obtain ⟨iha, δ, ihb, ihc⟩ := ih
        { nextId := st.nextId + 1,
          signals := st.signals ++ [(st.nextId,
            parseElementAttributeValue a.value)],
          database := jsMapSet st.database (signalIdString st.nextId)
            { id := signalIdString st.nextId,
              content := Content.signalRef st.nextId } } (i + 1)
      refine ⟨by dsimp only at iha; omega,
        (st.nextId, parseElementAttributeValue a.value) :: δ, ?_, ?_⟩
      · rw [ihb]
        dsimp only
        simp [List.append_assoc]
      · intro m hm
        simp only [List.map_cons, List.mem_cons] at hm
        rcases hm with hm | hm
        · omega
        · have := ihc m hm
          dsimp only at this
          omega

/-- spreadFields preserves well-formedness of the signal store. -/
theorem spreadFields_wf (origName : String) (markerIdx : Nat)
    (fields : List (String × Content)) (st : Eng1State) (li : Nat)
    (h : eng1WF st) : eng1WF (spreadFields origName markerIdx st li fields).1 := by
  obtain ⟨-, hn, hsig⟩ := spreadFields_spec origName markerIdx fields st li
  intro m hm
  rw [hsig, List.map_append, List.mem_append] at hm
  rw [hn]
  rcases hm with hm | hm
  · have := h m hm
    omega
  · obtain ⟨⟨m1, m2⟩, hmem, hfst⟩ := List.mem_map.mp hm
    obtain ⟨hr, -⟩ := List.of_mem_zip hmem
    obtain ⟨j, hj, hmj⟩ := List.mem_range'.mp hr
    subst hfst
    omega

/-- The loop preserves well-formedness of the signal store. -/
theorem interpAttrsLoop_wf : ∀ (attrs : List Attr) (st : Eng1State) (i : Nat),
    eng1WF st → eng1WF (interpAttrsLoop st i attrs).1 := by
  intro attrs
  induction attrs with
  | nil => intro st i h; exact h
  | cons a rest ih =>
    intro st i h
    by_cases hs : jsStartsWith a.name "::" = true
    · simp only [interpAttrsLoop, hs, if_true]
      rcases hlk : List.lookup a.name st.database with _ | packet
      · exact ih st (i + 1) h
      · rcases hpc : packet.content with s | n | b | _ | _ | fields | items | f | sr
        · dsimp only; rw [hpc]; exact ih st (i + 1) h
        · dsimp only; rw [hpc]; exact ih st (i + 1) h
        · dsimp only; rw [hpc]; exact ih st (i + 1) h
        · dsimp only; rw [hpc]; exact ih st (i + 1) h
        · dsimp only; rw [hpc]; exact ih st (i + 1) h
        · dsimp only
          rw [hpc]
          dsimp only
          exact ih _ (i + 1) (spreadFields_wf a.name i fields st 1 h)
        · dsimp only; rw [hpc]; exact ih st (i + 1) h
        · dsimp only; rw [hpc]; exact ih st (i + 1) h
        · dsimp only; rw [hpc]; exact ih st (i + 1) h
    · simp only [interpAttrsLoop, hs, Bool.false_eq_true, if_false]
      dsimp only [newSignal]
      refine ih _ (i + 1) ?_
      intro m hm
      simp only [List.map_append, List.mem_append, List.map_cons, List.map_nil,
        List.mem_singleton] at hm
      dsimp only
      rcases hm with hm | hm
      · have := h m hm
        omega
      · omega

/-- The loop adds database entries only at signal ids at least the
starting counter or at colon-headed keys; the lookup of every other key
is unchanged. -/
theorem interpAttrsLoop_db_preserve : ∀ (attrs : List Attr) (st : Eng1State) (i : Nat)
    (k : String),
    (∀ m, st.nextId ≤ m → k ≠ signalIdString m) →
    k.toList.head? ≠ some ':' →
    (interpAttrsLoop st i attrs).1.database.lookup k = st.database.lookup k := by
  intro attrs
  induction attrs with
  | nil => intro st i k _ _; rfl
  | cons a rest ih =>
    intro st i k hsid hcol
    by_cases hs : jsStartsWith a.name "::" = true
    · simp only [interpAttrsLoop, hs, if_true]
      rcases hlk : List.lookup a.name st.database with _ | packet
      · exact ih st (i + 1) k hsid hcol
      · rcases hpc : packet.content with s | n | b | _ | _ | fields | items | f | sr
        · dsimp only; rw [hpc]; exact ih st (i + 1) k hsid hcol
        · dsimp only; rw [hpc]; exact ih st (i + 1) k hsid hcol
        · dsimp only; rw [hpc]; exact ih st (i + 1) k hsid hcol
        · dsimp only; rw [hpc]; exact ih st (i + 1) k hsid hcol
        · dsimp only; rw [hpc]; exact ih st (i + 1) k hsid hcol
        · dsimp only
          rw [hpc]
          dsimp only
          obtain ⟨-, hn, -⟩ := spreadFields_spec a.name i fields st 1
          rw [ih _ (i + 1) k (fun m hm => hsid m (by omega)) hcol]
          exact spreadFields_db_other a.name i fields st 1 k (fun f hf hcon => by
            rw [hcon] at hcol
            exact hcol (spread_recordId_head a.name f hs))
        · dsimp only; rw [hpc]; exact ih st (i + 1) k hsid hcol
        · dsimp only; rw [hpc]; exact ih st (i + 1) k hsid hcol
        · dsimp only; rw [hpc]; exact ih st (i + 1) k hsid hcol
    · simp only [interpAttrsLoop, hs, Bool.false_eq_true, if_false]
      dsimp only [newSignal]
      rw [ih _ (i + 1) k (fun m hm => hsid m (by dsimp only at hm; omega)) hcol]
      dsimp only
      exact lookup_jsMapSet_ne (hsid st.nextId (le_refl _))

/-- Splice insertion preserves membership. -/
theorem mem_spliceInsert {x : Option Attr} {l : List (Option Attr)} (pos : Nat)
    (y : Attr) (h : x ∈ l) : x ∈ spliceInsert l pos y := by
  unfold spliceInsert
  rw [insertIdx_eq_take_cons_drop _ l _ (min_le_right pos l.length)]
  rw [← List.take_append_drop (min pos l.length) l] at h
  rcases List.mem_append.mp h with h | h
  · exact List.mem_append.mpr (Or.inl h)
  · exact List.mem_append.mpr (Or.inr (List.mem_cons_of_mem _ h))

/-- Applying staged splices preserves membership. -/
theorem mem_applySplices : ∀ (entries : List (Nat × Attr)) (l : List (Option Attr))
    (x : Option Attr), x ∈ l → x ∈ applySplices l entries := by
  intro entries
  induction entries with
  | nil => intro l x h; exact h
  | cons e rest ih =>
    intro l x h
    cases e with
    | mk pos y => exact ih _ x (mem_spliceInsert pos y h)

/-- A loop over attributes none of which is marker-named stages no
insertions and adds only signal-id records to the database. -/
theorem interpAttrsLoop_plain : ∀ (attrs : List Attr) (st : Eng1State) (i : Nat),
    (∀ b ∈ attrs, jsStartsWith b.name "::" = false) →
    (interpAttrsLoop st i attrs).2.2 = [] ∧
    (∀ k : String, (∀ m, st.nextId ≤ m → k ≠ signalIdString m) →
      (interpAttrsLoop st i attrs).1.database.lookup k = st.database.lookup k) := by
  intro attrs
  induction attrs with
  | nil => intro st i _; exact ⟨rfl, fun k _ => rfl⟩
  | cons a rest ih =>
    intro st i hall
    have ha : jsStartsWith a.name "::" = false := hall a (List.mem_cons_self _ _)
    have hrest : ∀ b ∈ rest, jsStartsWith b.name "::" = false :=
      fun b hb => hall b (List.mem_cons_of_mem _ hb)
    simp only [interpAttrsLoop, ha, Bool.false_eq_true, if_false]
    dsimp only [newSignal]
    obtain ⟨ih1, ih2⟩ := ih
      { nextId := st.nextId + 1,
        signals := st.signals ++ [(st.nextId, parseElementAttributeValue a.value)],
        database := jsMapSet st.database (signalIdString st.nextId)
          { id := signalIdString st.nextId,
            content := Content.signalRef st.nextId } } (i + 1) hrest
    refine ⟨ih1, fun k hk => ?_⟩
    rw [ih2 k (fun m hm => hk m (by dsimp only at hm; omega))]
    dsimp only
    exact lookup_jsMapSet_ne (hk st.nextId (le_refl _))

/-- Looking up a freshly ranged key in the zip of the key range with the
values finds the value at the key's offset. -/
theorem lookup_range'_zip (vals : List Content) : ∀ (n0 j : Nat), j < vals.length →
    List.lookup (n0 + j) ((List.range' n0 vals.length).zip vals) = vals.get? j := by
  induction vals with
  | nil => intro n0 j h; cases h
  | cons v rest ih =>
    intro n0 j h
    cases j with
    | zero =>
      simp only [List.length_cons, List.range'_succ, List.zip_cons_cons, List.lookup,
        Nat.add_zero, beq_self_eq_true]
      rfl
    | succ q =>
      have hne : ((n0 + (q + 1)) == n0) = false := by
        simp only [beq_eq_false_iff_ne, ne_eq]
        omega
      simp only [List.length_cons, List.range'_succ, List.zip_cons_cons, List.lookup,
        hne]
      have : n0 + (q + 1) = (n0 + 1) + q := by omega
      rw [this]
      show List.lookup (n0 + 1 + q) ((List.range' (n0 + 1) rest.length).zip rest) =
        (v :: rest).get? (q + 1)
      rw [ih (n0 + 1) q (by simpa using h)]
      rfl

/-- C8 (amended): for every attribute whose name is not a marker id (does
not start with "::"), the first attribute engine unconditionally parses
its literal value — a string containing a percent sign anywhere becomes a
value/unit pair via parseFloat, any other string whose Number coercion is
not NaN becomes its parseFloat number, and remaining strings and
non-string values stay unchanged — wraps the parsed result in a fresh
Reactive Value, replaces the attribute's value with that Reactive Value
in place, and registers a Record for the signal in the database under the
signal's id. -/
theorem claim8_plain_attribute_upgrade (st : Eng1State) (pre post : List Attr)
    (a : Attr) (hplain : jsStartsWith a.name "::" = false)
    (hwf : eng1WF st) :
    ∃ n,
      n ∉ st.signals.map Prod.fst ∧
      (interpAttrsLoop st 0 (pre ++ a :: post)).2.1.get? pre.length =
        some (some (Attr.mk a.name (Content.signalRef n))) ∧
      some (Attr.mk a.name (Content.signalRef n)) ∈
        (interpolateAttributesNode st (pre ++ a :: post)).2 ∧
      (interpAttrsLoop st 0 (pre ++ a :: post)).1.signals.lookup n =
        some (parseElementAttributeValue a.value) ∧
      (interpAttrsLoop st 0 (pre ++ a :: post)).1.database.lookup (signalIdString n) =
        some { id := signalIdString n, content := Content.signalRef n } ∧
      (∀ s : String, parseElementAttributeValue (Content.str s) =
        if s.toList.contains '%' then
          Content.obj [("value", Content.num (jsParseFloat s.toList)),
            ("unit", Content.str "%")]
        else if jsIsNaN (jsToNumber s.toList) = false then
          Content.num (jsParseFloat s.toList)
        else Content.str s) ∧
      (∀ v : Content, (∀ s, v ≠ Content.str s) → parseElementAttributeValue v = v) := by
  obtain ⟨hmono, δ0, hsig0, hkey0⟩ := interpAttrsLoop_state pre st 0
  have hwf1 : eng1WF (interpAttrsLoop st 0 pre).1 := interpAttrsLoop_wf pre st 0 hwf
  set st1 := (interpAttrsLoop st 0 pre).1 with hst1
  set n := st1.nextId with hn
  set st2 : Eng1State :=
    { nextId := st1.nextId + 1,
      signals := st1.signals ++ [(st1.nextId, parseElementAttributeValue a.value)],
      database := jsMapSet st1.database (signalIdString st1.nextId)
        { id := signalIdString st1.nextId,
          content := Content.signalRef st1.nextId } } with hst2
  have hsplit := interpAttrsLoop_append pre (a :: post) st 0
  have hstep : interpAttrsLoop st1 (0 + pre.length) (a :: post) =
      ((interpAttrsLoop st2 (0 + pre.length + 1) post).1,
       some (Attr.mk a.name (Content.signalRef n)) ::
         (interpAttrsLoop st2 (0 + pre.length + 1) post).2.1,
       (interpAttrsLoop st2 (0 + pre.length + 1) post).2.2) := by
    simp only [interpAttrsLoop, hplain, Bool.false_eq_true, if_false]
    dsimp only [newSignal]
  obtain ⟨hmono2, δ2, hsig2, hkey2⟩ :=
    interpAttrsLoop_state post st2 (0 + pre.length + 1)
  refine ⟨n, ?_, ?_, ?_, ?_, ?_, ?_, ?_⟩
  · intro hmem
    have := hwf n (by exact hmem)
    omega
  · rw [hsplit]
    dsimp only
    rw [hstep]
    dsimp only
    rw [List.get?_append_right (by
      rw [interpAttrsLoop_slots_length pre st 0])]
    rw [interpAttrsLoop_slots_length pre st 0, Nat.sub_self]
    rfl
  · have hmem : some (Attr.mk a.name (Content.signalRef n)) ∈
        (interpAttrsLoop st 0 (pre ++ a :: post)).2.1 := by
      rw [hsplit]
      dsimp only
      rw [hstep]
      dsimp only
      exact List.mem_append.mpr (Or.inr (List.mem_cons_self _ _))
    exact mem_applySplices _ _ _ hmem
  · rw [hsplit]
    dsimp only
    rw [hstep]
    dsimp only
    rw [hsig2]
    apply lookup_append_of_some
    show (st1.signals ++ [(n, parseElementAttributeValue a.value)]).lookup n =
      some (parseElementAttributeValue a.value)
    rw [lookup_append_of_none (lookup_eq_none_of_not_mem_keys (fun hmem => by
      have := hwf1 n hmem
      omega))]
    simp [List.lookup]
  · rw [hsplit]
    dsimp only
    rw [hstep]
    dsimp only
    rw [interpAttrsLoop_db_preserve post st2 (0 + pre.length + 1) (signalIdString n)
      (fun m hm hcon => by
        have := signalIdString_injective hcon
        subst this
        dsimp only [hst2] at hm
        omega)
      (by rw [signalIdString_head]; intro hcon; cases hcon)]
    show (jsMapSet st1.database (signalIdString n)
      { id := signalIdString n, content := Content.signalRef n }).lookup
        (signalIdString n) = _
    exact lookup_jsMapSet_self _ _ _
  · intro s
    by_cases h1 : s.toList.contains '%' = true
    · simp [parseElementAttributeValue, h1]
    · by_cases h2 : jsIsNaN (jsToNumber s.toList) = true
      · simp [parseElementAttributeValue, h1, h2]
      · simp [parseElementAttributeValue, h1, h2]
  · intro v hv
    cases v with
    | str s => exact absurd rfl (hv s)
    | _ => rfl

/-- C8 counterexample: the literal "a%" is not a numeric string, so the
claim leaves it a string, but the engine converts every percent-containing
string, producing a value/unit pair whose value is parseFloat's NaN; the
upgraded attribute's signal therefore holds the pair, not the string. -/
theorem claim8_counterexample :
    parseElementAttributeValue (Content.str "a%") =
      Content.obj [("value", Content.num JsNum.nan), ("unit", Content.str "%")] ∧
    parseElementAttributeValue (Content.str "a%") ≠ Content.str "a%" ∧
    (interpAttrsLoop ⟨1, [], []⟩ 0 [Attr.mk "w" (Content.str "a%")]).1.signals =
      [(1, Content.obj [("value", Content.num JsNum.nan),
        ("unit", Content.str "%")])] := by
  refine ⟨rfl, ?_, rfl⟩
  intro hcon
  have h0 : parseElementAttributeValue (Content.str "a%") =
      Content.obj [("value", Content.num JsNum.nan), ("unit", Content.str "%")] := rfl
  rw [h0] at hcon
  exact Content.noConfusion hcon

/-- Witness for C8 at a single plain attribute with literal "red": the
slot is upgraded to a fresh signal holding the unchanged string. -/
theorem claim8_witness :
    ∃ n, (interpAttrsLoop ⟨1, [], []⟩ 0 [Attr.mk "w" (Content.str "red")]).2.1.get? 0 =
        some (some (Attr.mk "w" (Content.signalRef n))) ∧
      (interpAttrsLoop ⟨1, [], []⟩ 0
        [Attr.mk "w" (Content.str "red")]).1.signals.lookup n =
        some (Content.str "red") := by
  obtain ⟨n, -, h2, -, h4, -, -, -⟩ :=
    claim8_plain_attribute_upgrade ⟨1, [], []⟩ [] [] (Attr.mk "w" (Content.str "red"))
      (by decide) (fun m hm => absurd hm (List.not_mem_nil m))
  exact ⟨n, h2, h4⟩

/-- Marker names start with a colon. -/
theorem startsWithColons_head {s : String} (h : jsStartsWith s "::" = true) :
    s.toList.head? = some ':' := by
  unfold jsStartsWith at h
  obtain ⟨t, ht⟩ := (List.isPrefixOf_iff_prefix.mp h)
  rw [← ht]
  rfl

/-- Strings with different first characters differ. -/
theorem ne_of_head_colon_i {a b : String} (ha : a.toList.head? = some ':')
    (hb : b.toList.head? = some 'i') : a ≠ b := by
  intro hcon
  subst hcon
  rw [ha] at hb
  cases hb

/-- C7 (amended): when a spread marker is the only marker-named attribute
of its node and its Record's content is a map with duplicate-free field
names, the engine produces, for each field in enumeration order, a new
Record with id marker-field classified attribute-value-assignment for the
field, and splices one new attribute per field, each bound to a fresh
independent reactive value, contiguously and in field order immediately
after the empty slot left at the marker's former position (the JS delete
hole); the attribute object itself is gone from the slot. -/
theorem claim7_spread_expansion (st : Eng1State) (pre post : List Attr)
    (marker : Attr) (packet : Rec) (fields : List (String × Content))
    (hwf : eng1WF st)
    (hmn : jsStartsWith marker.name "::" = true)
    (hlk : st.database.lookup marker.name = some packet)
    (hobj : packet.content = Content.obj fields)
    (hnames : (fields.map Prod.fst).Nodup)
    (hpre : ∀ b ∈ pre, jsStartsWith b.name "::" = false)
    (hpost : ∀ b ∈ post, jsStartsWith b.name "::" = false) :
    ∃ (slotsPre slotsPost : List (Option Attr)) (refs : List Nat),
      slotsPre.length = pre.length ∧ slotsPost.length = post.length ∧
      refs.length = fields.length ∧ refs.Nodup ∧
      (∀ n ∈ refs, n ∉ st.signals.map Prod.fst) ∧
      (interpolateAttributesNode st (pre ++ marker :: post)).2 =
        slotsPre ++ none :: ((fields.zip refs).map
          (fun fr => some (Attr.mk fr.1.1 (Content.signalRef fr.2)))) ++ slotsPost ∧
      (∀ fr ∈ fields.zip refs,
        (interpolateAttributesNode st (pre ++ marker :: post)).1.signals.lookup fr.2 =
          some fr.1.2) ∧
      (∀ fv ∈ fields,
        (interpolateAttributesNode st (pre ++ marker :: post)).1.database.lookup
            (marker.name ++ "-" ++ fv.1) =
          some { id := marker.name ++ "-" ++ fv.1, content := fv.2,
                 classification := some (Classification.attributeValueAssignment fv.1
                   ("is" ++ capitalizeJS fv.1 ++ "Attribute")) }) := by
  obtain ⟨hmono1, δ1, hsig1, hkey1⟩ := interpAttrsLoop_state pre st 0
  have hwf1 : eng1WF (interpAttrsLoop st 0 pre).1 := interpAttrsLoop_wf pre st 0 hwf
  obtain ⟨hpre_staged, hpre_db⟩ := interpAttrsLoop_plain pre st 0 hpre
  set st1 := (interpAttrsLoop st 0 pre).1 with hst1
  set k := pre.length with hk
  have hlk1 : st1.database.lookup marker.name = some packet := by
    rw [hpre_db marker.name (fun m _ => ne_of_head_colon_i
      (startsWithColons_head hmn) (signalIdString_head m))]
    exact hlk
  obtain ⟨hsp_staged, hsp_next, hsp_sig⟩ := spreadFields_spec marker.name k fields st1 1
  set st2 := (spreadFields marker.name k st1 1 fields).1 with hst2
  obtain ⟨hpost_staged, hpost_db⟩ := interpAttrsLoop_plain post st2 (k + 1) hpost
  obtain ⟨hmono3, δ3, hsig3, hkey3⟩ := interpAttrsLoop_state post st2 (k + 1)
  set refs := List.range' st1.nextId fields.length with hrefs
  have hstep : interpAttrsLoop st1 (0 + k) (marker :: post) =
      ((interpAttrsLoop st2 (0 + k + 1) post).1,
       none :: (interpAttrsLoop st2 (0 + k + 1) post).2.1,
       (spreadFields marker.name (0 + k) st1 1 fields).2 ++
         (interpAttrsLoop st2 (0 + k + 1) post).2.2) := by
    simp only [interpAttrsLoop, hmn, if_true]
    rw [show (0 : Nat) + k = k from by omega]
    rw [hlk1]
    dsimp only
    rw [hobj]
  have hzerok : (0 : Nat) + k = k := by omega
  rw [hzerok] at hstep
  have hsplit := interpAttrsLoop_append pre (marker :: post) st 0
  rw [show (0 : Nat) + pre.length = k from by omega] at hsplit
  rw [hstep] at hsplit
  have hslotsPre : (interpAttrsLoop st 0 pre).2.1.length = k :=
    interpAttrsLoop_slots_length pre st 0
  have hslotsPost : (interpAttrsLoop st2 (k + 1) post).2.1.length = post.length :=
    interpAttrsLoop_slots_length post st2 (k + 1)
  refine ⟨(interpAttrsLoop st 0 pre).2.1, (interpAttrsLoop st2 (k + 1) post).2.1,
    refs, hslotsPre, hslotsPost, List.length_range' _ _ _, List.nodup_range' .., ?_,
    ?_, ?_, ?_⟩
  · intro n hn hmem
    obtain ⟨j, hj, hnj⟩ := List.mem_range'.mp hn
    have := hwf n hmem
    omega
  · show applySplices (interpAttrsLoop st 0 (pre ++ marker :: post)).2.1
      (interpAttrsLoop st 0 (pre ++ marker :: post)).2.2 = _
    rw [hsplit]
    dsimp only
    rw [hpre_staged, hpost_staged, hsp_staged]
    simp only [List.nil_append, List.append_nil]
    have hlen : k + 1 ≤ ((interpAttrsLoop st 0 pre).2.1 ++
        none :: (interpAttrsLoop st2 (k + 1) post).2.1).length := by
      simp only [List.length_append, List.length_cons, hslotsPre]
      omega
    rw [applySplices_stagedFrom _ _ (k + 1) hlen]
    have htake : ((interpAttrsLoop st 0 pre).2.1 ++
        none :: (interpAttrsLoop st2 (k + 1) post).2.1).take (k + 1) =
        (interpAttrsLoop st 0 pre).2.1 ++ [none] := by
      rw [show k + 1 = (interpAttrsLoop st 0 pre).2.1.length + 1 from by
        rw [hslotsPre], List.take_append]
      rfl
    have hdrop : ((interpAttrsLoop st 0 pre).2.1 ++
        none :: (interpAttrsLoop st2 (k + 1) post).2.1).drop (k + 1) =
        (interpAttrsLoop st2 (k + 1) post).2.1 := by
      rw [show k + 1 = (interpAttrsLoop st 0 pre).2.1.length + 1 from by
        rw [hslotsPre], List.drop_append]
      rfl
    rw [htake, hdrop]
    simp only [List.map_map, List.append_assoc, List.singleton_append]
    rfl
  · intro fr hfr
    obtain ⟨j, hj⟩ := List.get?_of_mem hfr
    have hj2 := hj
    rw [show fields.zip refs = List.zipWith Prod.mk fields refs from rfl,
      List.get?_zipWith_eq_some] at hj2
    obtain ⟨x, y, hx, hy, hxy⟩ := hj2
    have hjlt : j < fields.length := by
      by_contra hge
      rw [List.get?_eq_none.mpr (by omega)] at hx
      cases hx
    have hyv : y = st1.nextId + j := by
      rw [List.get?_range' _ _ (by simpa [hrefs] using hjlt)] at hy
      have := Option.some.inj hy
      omega
    show (interpAttrsLoop st 0 (pre ++ marker :: post)).1.signals.lookup fr.2 =
      some fr.1.2
    rw [hsplit]
    dsimp only
    rw [hsig3]
    apply lookup_append_of_some
    rw [hst2] at hsp_sig ⊢
    rw [hsp_sig]
    have hnotmem : fr.2 ∉ st1.signals.map Prod.fst := by
      intro hmem
      have := hwf1 fr.2 hmem
      rw [← hxy, hyv] at this
      dsimp only at this
      omega
    rw [lookup_append_of_none (lookup_eq_none_of_not_mem_keys hnotmem)]
    rw [← hxy]
    dsimp only
    rw [hyv]
    have hvals : j < (fields.map Prod.snd).length := by simpa using hjlt
    rw [hrefs]
    rw [show fields.length = (fields.map Prod.snd).length from
      (List.length_map _ _).symm]
    rw [lookup_range'_zip (fields.map Prod.snd) st1.nextId j hvals]
    rw [List.get?_map, hx]
    rfl
  · intro fv hfv
    show (interpAttrsLoop st 0 (pre ++ marker :: post)).1.database.lookup
      (marker.name ++ "-" ++ fv.1) = _
    rw [hsplit]
    dsimp only
    rw [hpost_db (marker.name ++ "-" ++ fv.1) (fun m _ =>
      ne_of_head_colon_i (spread_recordId_head marker.name fv.1 hmn)
        (signalIdString_head m))]
    exact spreadFields_db_field marker.name k fields st1 1 hnames fv hfv

/-- First record of the C7 counterexample: the map bound to marker ::0. -/
def claim7Rec0 : Rec :=
  { id := "::0",
    content := Content.obj [("f1", Content.str "A"), ("f2", Content.str "B")] }

/-- Second record of the C7 counterexample: the map bound to marker ::1. -/
def claim7Rec1 : Rec :=
  { id := "::1",
    content := Content.obj [("g1", Content.str "C"), ("g2", Content.str "D")] }

/-- Engine state of the C7 counterexample: two spread markers, each bound
to a two-field map. -/
def claim7State : Eng1State :=
  { nextId := 1, signals := [],
    database := [("::0", claim7Rec0), ("::1", claim7Rec1)] }

/-- Attribute array of the C7 counterexample node. -/
def claim7Attrs : List Attr :=
  [Attr.mk "::0" (Content.str ""), Attr.mk "::1" (Content.str "")]

/-- C7 counterexample: with two spread markers on one node the staged
insertion positions are computed against the original indices but applied
sequentially, so the second marker's fields land between the first
marker's fields — the attribute order comes out f1, g1, g2, f2, never the
contiguous f1, f2 block the claim requires immediately after the first
marker's former position. -/
theorem claim7_counterexample :
    ((interpolateAttributesNode claim7State claim7Attrs).2.map
        (fun slot => slot.map Attr.name) =
      [none, some "f1", some "g1", some "g2", some "f2", none]) ∧
    ¬ ∃ tail, (interpolateAttributesNode claim7State claim7Attrs).2.map
        (fun slot => slot.map Attr.name) =
      none :: some "f1" :: some "f2" :: tail := by
  have h1 : (interpolateAttributesNode claim7State claim7Attrs).2.map
      (fun slot => slot.map Attr.name) =
      [none, some "f1", some "g1", some "g2", some "f2", none] := by decide
  refine ⟨h1, ?_⟩
  rintro ⟨tail, htail⟩
  rw [h1] at htail
  have h3 : (some "g1" : Option String) = some "f2" :=
    congrArg (fun l => l.getD 2 none) htail
  exact absurd (Option.some.inj h3) (by decide)

/-- Record of the C7 witness: the spec's example map. -/
def claim7WitRec : Rec :=
  { id := "::0",
    content := Content.obj [("color", Content.str "red"),
      ("width", Content.num (JsNum.val 200))] }

/-- Engine state of the C7 witness. -/
def claim7WitState : Eng1State :=
  { nextId := 1, signals := [], database := [("::0", claim7WitRec)] }

/-- Witness for C7 at the spec's example map with fields color and width:
the node ends with the marker hole followed by exactly the two new
attributes, in field order, each bound to its own fresh signal. -/
theorem claim7_witness :
    ∃ refs : List Nat,
      refs.Nodup ∧
      (interpolateAttributesNode claim7WitState [Attr.mk "::0" (Content.str "")]).2 =
        none :: (([("color", Content.str "red"),
            ("width", Content.num (JsNum.val 200))].zip refs).map
          (fun fr => some (Attr.mk fr.1.1 (Content.signalRef fr.2)))) := by
  obtain ⟨slotsPre, slotsPost, refs, hl1, hl2, hl3, hnd, hfresh, heq, hsig, hdb⟩ :=
    claim7_spread_expansion claim7WitState [] [] (Attr.mk "::0" (Content.str ""))
      claim7WitRec
      [("color", Content.str "red"), ("width", Content.num (JsNum.val 200))]
      (fun m hm => absurd hm (List.not_mem_nil m))
      (by decide) rfl rfl (by decide)
      (fun b hb => absurd hb (List.not_mem_nil b))
      (fun b hb => absurd hb (List.not_mem_nil b))
  have hsp : slotsPre = [] := List.length_eq_zero.mp hl1
  have hsq : slotsPost = [] := List.length_eq_zero.mp hl2
  refine ⟨refs, hnd, ?_⟩
  simp only [List.nil_append] at heq
  rw [heq, hsp, hsq]
  simp

/-! ### Attribute Interpolation Engine, second variant (claim C2)

interpolateAttributes2 walks the tree; per node it first collects the
attributes to process (expanding spread markers into synthesized Records
and throwing on a direct marker whose record id is absent), then runs the
dispatch over the collected entries, applying live bindings to the node.
The walk and the node surfaces (attribute list, setAttribute, handler
properties, style, classList) belong to the missing XMLParser
collaborator and the host tree; they are modelled from the spec's
description of the tree builder.  JS exceptions unwind but leave every
mutation made so far in place, so the runners return their partial state
together with an optional error instead of using Except. -/

/-- Nullish test (null or undefined). -/
def Content.isNullish : Content → Bool
  | Content.null => true
  | Content.undef => true
  | _ => false

/-- Model of removing a key from a keyed surface. -/
def jsMapDelete {α : Type} (m : List (String × α)) (k : String) : List (String × α) :=
  m.filter (fun p => p.1 ≠ k)

/-- Model of classList.add: sets do not duplicate tokens. -/
def jsClassAdd (classes : List String) (c : String) : List String :=
  if c ∈ classes then classes else classes ++ [c]

mutual

/-- Model of JS String() on the embedded values.  Signals stringify to
their id via their toPrimitive hook; the decimal rendering of
non-integral doubles and of function sources is not exercised by any
claim and is left as an abstract token. -/
def jsToString : Content → String
  | Content.str s => s
  | Content.num JsNum.nan => "NaN"
  | Content.num (JsNum.inf true) => "-Infinity"
  | Content.num (JsNum.inf false) => "Infinity"
  | Content.num (JsNum.val q) =>
    if q.den = 1 then
      if q.num < 0 then "-" ++ jsNatToString q.num.natAbs
      else jsNatToString q.num.natAbs
    else "[number]"
  | Content.jsBool true => "true"
  | Content.jsBool false => "false"
  | Content.null => "null"
  | Content.undef => "undefined"
  | Content.obj _ => "[object Object]"
  | Content.arr items => String.intercalate "," (jsToStringList items)
  | Content.func _ => "[function]"
  | Content.signalRef n => signalIdString n

def jsToStringList : List Content → List String
  | [] => []
  | c :: rest => jsToString c :: jsToStringList rest

end

/-- The dynamically named capability flag tests of Record. -/
def Rec.isStyleAttribute (r : Rec) : Bool :=
  match r.classification with
  | some (Classification.attributeValueAssignment _ f) => f == "isStyleAttribute"
  | _ => false

/-- Class capability flag test. -/
def Rec.isClassAttribute (r : Rec) : Bool :=
  match r.classification with
  | some (Classification.attributeValueAssignment _ f) => f == "isClassAttribute"
  | _ => false

/-- An attribute as the parser delivers it: name and literal value. -/
structure Attr2 where
  name : String
  value : String
deriving DecidableEq

/-- One live signal of the second engine: current value and the number of
registered subscribers. -/
structure Sig2 where
  value : Content
  subs : Nat

/-- State the second engine threads: the record database, the signal
store, and the counter minting unsubscribe tokens. -/
structure Eng2State where
  database : List (String × Rec)
  signals : List (Nat × Sig2)
  nextToken : Nat

/-- The node surfaces the dispatch mutates. -/
structure Node2 where
  attrs : List (Option Attr2)
  outAttrs : List (String × String)
  handlers : List (String × Nat)
  styleProps : List (String × Content)
  classes : List String
  currentState : List String

/-- Register one more subscriber on a signal. -/
def registerSub (st : Eng2State) (ref : Nat) : Eng2State :=
  let sigs := st.signals.map
    (fun p => if p.1 = ref then (p.1, { p.2 with subs := p.2.subs + 1 }) else p)
  { st with signals := sigs }

/-- Push an unsubscribe token onto the cleanup list of the record with the
given id. -/
def pushUnsubToRec (st : Eng2State) (recId : String) (tok : Nat) : Eng2State :=
  let db := st.database.map
    (fun p => if p.1 = recId then
      (p.1, { p.2 with unsubscribeHandles := p.2.unsubscribeHandles ++ [tok] })
    else p)
  { st with database := db }

/-- Mint the next unsubscribe token. -/
def mintToken (st : Eng2State) : Nat × Eng2State :=
  (st.nextToken, { st with nextToken := st.nextToken + 1 })

/-- Spread collection of the second engine: for each field, in enumeration
order, synthesize the dash id, register the classified Record holding the
raw field value, and queue the (attributeName, recordId) pair for the
dispatch. -/
def spreadRecords2 (origName : String) :
    List (String × Content) → Eng2State → Eng2State × List (String × String)
  | [], st => (st, [])
  | (attributeName, content) :: rest, st =>
    let recordId := origName ++ "-" ++ attributeName
    let newRec : Rec :=
      { id := recordId, content := content,
        classification := some (Classification.attributeValueAssignment attributeName
          ("is" ++ capitalizeJS attributeName ++ "Attribute")) }
    let st2 := { st with database := jsMapSet st.database recordId newRec }
    let restRes := spreadRecords2 origName rest st2
    (restRes.1, (attributeName, recordId) :: restRes.2)

/-- The lookup-failure message of the second engine. -/
def lookupFailureMessage (recordId : String) : String :=
  "Record id \"" ++ recordId ++ "\" was not found in the database."

/-- The spread half of one collection step: a marker-named attribute
expands when its record exists and is object-typed, and its slot is
deleted (the Bool) whenever the name is marker-shaped. -/
def spreadStep (attrb : Attr2) (st : Eng2State) :
    Eng2State × List (String × String) × Bool :=
  if jsStartsWith attrb.name "::" then
    match List.lookup attrb.name st.database with
    | some packet =>
      match packet.content with
      | Content.obj fields =>
        let r := spreadRecords2 attrb.name fields st
        (r.1, r.2, true)
      | _ => (st, [], true)
    | none => (st, [], true)
  else (st, [], false)

/-- Collection phase over one node's attribute array (holes are skipped as
forEach does).  After the spread step, an attribute whose value is a
record id is queued for dispatch and its slot deleted, but an absent
record id throws, aborting the walk with every mutation made so far
kept. -/
def collectNode : List (Option Attr2) → Eng2State →
    List (Option Attr2) × Eng2State × List (String × String) × Option JsError
  | [], st => ([], st, [], none)
  | none :: rest, st =>
    let r := collectNode rest st
    (none :: r.1, r.2)
  | some attrb :: rest, st =>
    let spreadRes := spreadStep attrb st
    let st1 := spreadRes.1
    if jsStartsWith attrb.value "::" then
      match List.lookup attrb.value st1.database with
      | none =>
        ((if spreadRes.2.2 then none else some attrb) :: rest, st1, spreadRes.2.1,
         some (JsError.thrown (lookupFailureMessage attrb.value)))
      | some _ =>
        let r := collectNode rest st1
        (none :: r.1, r.2.1,
         spreadRes.2.1 ++ (attrb.name, attrb.value) :: r.2.2.1, r.2.2.2)
    else
      let r := collectNode rest st1
      ((if spreadRes.2.2 then none else some attrb) :: r.1, r.2.1,
       spreadRes.2.1 ++ r.2.2.1, r.2.2.2)

/-- Current value of a signal store slot; engine-produced states always
hold every referenced slot, absent slots read as undefined. -/
def sigCurrent (st : Eng2State) (ref : Nat) : Content :=
  match st.signals.lookup ref with
  | some sg => sg.value
  | none => Content.undef

/-- The immediate callback of the reactive-style branch: plain css values
are assigned, signal-valued entries are subscribed with the nested
unsubscribe pushed onto the originating record, the nested immediate call
assigning the signal's current value when non-nullish. -/
def applyStyleEntries (node : Node2) (st : Eng2State) (recId : String) :
    List (String × Content) → Node2 × Eng2State
  | [] => (node, st)
  | (css, v) :: rest =>
    match v with
    | Content.signalRef s2 =>
      let v2 := sigCurrent st s2
      let node1 := if v2.isNullish then node
        else { node with styleProps := jsMapSet node.styleProps css v2 }
      let st1 := registerSub st s2
      let mt := mintToken st1
      applyStyleEntries node1 (pushUnsubToRec mt.2 recId mt.1) recId rest
    | _ =>
      applyStyleEntries { node with styleProps := jsMapSet node.styleProps css v }
        st recId rest

/-- The reactive-class branch body over the record's items.  A non-signal
item is stringified into the class list; a signal item with a nullish
current value is subscribed silently; a signal item with a non-nullish
current value fires the callback immediately, which evaluates the free
identifier `classes` and so throws a ReferenceError before the
subscription completes. -/
def applyClassItems (node : Node2) (st : Eng2State) (recId : String) :
    List Content → Node2 × Eng2State × Option JsError
  | [] => (node, st, none)
  | item :: rest =>
    match item with
    | Content.signalRef s2 =>
      if (sigCurrent st s2).isNullish then
        let st1 := registerSub st s2
        let mt := mintToken st1
        applyClassItems node (pushUnsubToRec mt.2 recId mt.1) recId rest
      else
        (node, st, some (JsError.referenceError "classes"))
    | _ =>
      applyClassItems { node with classes := jsClassAdd node.classes (jsToString item) }
        st recId rest

/-- Static branch over object entries writing style properties. -/
def applyStaticStyle (node : Node2) : List (String × Content) → Node2
  | [] => node
  | (css, v) :: rest =>
    applyStaticStyle { node with styleProps := jsMapSet node.styleProps css v } rest

/-- Handler-bag branch: only function-valued entries are installed. -/
def applyHandlerBag (node : Node2) : List (String × Content) → Node2
  | [] => node
  | (eventName, v) :: rest =>
    match v with
    | Content.func fref =>
      applyHandlerBag { node with handlers := jsMapSet node.handlers eventName fref } rest
    | _ => applyHandlerBag node rest

/-- Dispatch of one collected (attributeName, record) entry, the if/else
chain of the second engine's processing loop.  The record is fetched from
the live database by the id the collector queued. -/
def dispatchEntry (node : Node2) (st : Eng2State) (attributeName recordId : String) :
    Node2 × Eng2State × Option JsError :=
  match List.lookup recordId st.database with
  | none => (node, st, none)
  | some r =>
    if contentType r.content == "Signal" && r.isStyleAttribute then
      match r.content with
      | Content.signalRef sref =>
        let v := sigCurrent st sref
        let afterCb : Node2 × Eng2State :=
          if v.isNullish then (node, st)
          else
            match v with
            | Content.obj entries => applyStyleEntries node st recordId entries
            | _ => (node, st)
        let st2 := registerSub afterCb.2 sref
        let mt := mintToken st2
        (afterCb.1, pushUnsubToRec mt.2 recordId mt.1, none)
      | _ => (node, st, none)
    else if r.isClassAttribute && contentType r.content == "Array" then
      match r.content with
      | Content.arr items =>
        applyClassItems { node with currentState := [] } st recordId items
      | _ => (node, st, none)
    else if contentType r.content == "Signal" then
      match r.content with
      | Content.signalRef sref =>
        let v := sigCurrent st sref
        let node1 := if v.isNullish then node
          else { node with outAttrs := jsMapSet node.outAttrs attributeName (jsToString v) }
        let st1 := registerSub st sref
        let mt := mintToken st1
        (node1, pushUnsubToRec mt.2 recordId mt.1, none)
      | _ => (node, st, none)
    else if contentType r.content == "Object" && r.isStyleAttribute then
      match r.content with
      | Content.obj entries => (applyStaticStyle node entries, st, none)
      | _ => (node, st, none)
    else if contentType r.content == "Object" then
      match r.content with
      | Content.obj entries => (applyHandlerBag node entries, st, none)
      | _ => (node, st, none)
    else if contentType r.content == "function" then
      match r.content with
      | Content.func fref =>
        ({ node with handlers := jsMapSet node.handlers attributeName fref }, st, none)
      | _ => (node, st, none)
    else if contentType r.content == "string" || contentType r.content == "number" then
      ({ node with outAttrs := jsMapSet node.outAttrs attributeName (jsToString r.content) },
       st, none)
    else if !r.content.isNullish then
      ({ node with outAttrs := jsMapSet node.outAttrs attributeName (jsToString r.content) },
       st, none)
    else (node, st, none)

/-- Dispatch loop over the collected entries; a thrown error aborts with
every mutation made so far kept. -/
def processEntries (node : Node2) (st : Eng2State) :
    List (String × String) → Node2 × Eng2State × Option JsError
  | [] => (node, st, none)
  | (an, rid) :: rest =>
    let r := dispatchEntry node st an rid
    match r.2.2 with
    | some e => (r.1, r.2.1, some e)
    | none => processEntries r.1 r.2.1 rest

/-- One node of the walk: collection then dispatch; a collection error
skips the dispatch entirely. -/
def processNode2 (node : Node2) (st : Eng2State) : Node2 × Eng2State × Option JsError :=
  let c := collectNode node.attrs st
  let node1 := { node with attrs := c.1 }
  match c.2.2.2 with
  | some e => (node1, c.2.1, some e)
  | none => processEntries node1 c.2.1 c.2.2.1

/-- The walk of the second engine over the nodes in document order; a
thrown error unwinds past the remaining nodes, which stay untouched. -/
def interpolateAttributes2 : List Node2 → Eng2State →
    List Node2 × Eng2State × Option JsError
  | [], st => ([], st, none)
  | node :: rest, st =>
    let r := processNode2 node st
    match r.2.2 with
    | some e => (r.1 :: rest, r.2.1, some e)
    | none =>
      let rr := interpolateAttributes2 rest r.2.1
      (r.1 :: rr.1, rr.2)

/-- Every synthesized spread id contains the dash joiner. -/
theorem dash_mem_spreadId (origName a : String) : '-' ∈ (origName ++ "-" ++ a).toList := by
  have h1 : (origName ++ "-" ++ a).toList = origName.toList ++ '-' :: a.toList := by
    show (origName ++ "-" ++ a).data = origName.data ++ '-' :: a.data
    rw [String.data_append, String.data_append, List.append_assoc]
    rfl
  rw [h1]
  exact List.mem_append_right _ (List.mem_cons_self _ _)

/-- The spread record synthesis adds only dash-joined ids, so dash-free
ids keep their (absent) lookup. -/
theorem spreadRecords2_lookup_dashfree (origName k : String) (hk : '-' ∉ k.toList) :
    ∀ (fields : List (String × Content)) (st : Eng2State),
      (spreadRecords2 origName fields st).1.database.lookup k =
        st.database.lookup k := by
  intro fields
  induction fields with
  | nil => intro st; rfl
  | cons f rest ih =>
    intro st
    cases f with
    | mk fn fc =>
      simp only [spreadRecords2]
      rw [ih]
      exact lookup_jsMapSet_ne (fun he => hk (he ▸ dash_mem_spreadId origName fn))

/-- The spread step adds only dash-joined ids to the database. -/
theorem spreadStep_lookup_dashfree (attrb : Attr2) (st : Eng2State) (k : String)
    (hk : '-' ∉ k.toList) (h : st.database.lookup k = none) :
    (spreadStep attrb st).1.database.lookup k = none := by
  unfold spreadStep
  by_cases hn : jsStartsWith attrb.name "::" = true
  · rw [if_pos hn]
    cases hdb : List.lookup attrb.name st.database with
    | none => exact h
    | some packet =>
      dsimp only
      cases hc : packet.content with
      | obj fields =>
        dsimp only
        rw [spreadRecords2_lookup_dashfree attrb.name k hk fields st]
        exact h
      | _ => exact h
  · rw [if_neg hn]
    exact h

/-- The whole collection phase adds only dash-joined ids to the
database. -/
theorem collectNode_lookup_dashfree (k : String) (hk : '-' ∉ k.toList) :
    ∀ (attrs : List (Option Attr2)) (st : Eng2State),
      st.database.lookup k = none →
      (collectNode attrs st).2.1.database.lookup k = none := by
  intro attrs
  induction attrs with
  | nil => intro st h; exact h
  | cons slot rest ih =>
    intro st h
    cases slot with
    | none =>
      simp only [collectNode]
      exact ih st h
    | some b =>
      simp only [collectNode]
      have h1 : (spreadStep b st).1.database.lookup k = none :=
        spreadStep_lookup_dashfree b st k hk h
      by_cases hv : jsStartsWith b.value "::" = true
      · simp only [hv, if_true]
        cases hdb : List.lookup b.value (spreadStep b st).1.database with
        | none => exact h1
        | some p => exact ih _ h1
      · simp only [hv, if_false]
        exact ih _ h1

/-- The only error the collection phase throws is the lookup-failure
message. -/
theorem collectNode_err_shape :
    ∀ (attrs : List (Option Attr2)) (st : Eng2State) (e : JsError),
      (collectNode attrs st).2.2.2 = some e →
      ∃ rid, e = JsError.thrown (lookupFailureMessage rid) := by
  intro attrs
  induction attrs with
  | nil =>
    intro st e h
    exact absurd h (by simp [collectNode])
  | cons slot rest ih =>
    intro st e h
    cases slot with
    | none =>
      simp only [collectNode] at h
      exact ih st e h
    | some b =>
      simp only [collectNode] at h
      by_cases hv : jsStartsWith b.value "::" = true
      · simp only [hv, if_true] at h
        cases hdb : List.lookup b.value (spreadStep b st).1.database with
        | none =>
          rw [hdb] at h
          dsimp only at h
          exact ⟨b.value, (Option.some.inj h).symm⟩
        | some p =>
          rw [hdb] at h
          dsimp only at h
          exact ih _ e h
      · simp only [hv, if_false] at h
        exact ih _ e h

/-- Reaching a direct marker whose dash-free id is absent both initially
and forever (collection only adds dash ids) makes the collection phase
throw. -/
theorem collectNode_err_missing :
    ∀ (attrs : List (Option Attr2)) (st : Eng2State) (a : Attr2),
      some a ∈ attrs →
      jsStartsWith a.value "::" = true →
      st.database.lookup a.value = none →
      '-' ∉ a.value.toList →
      (collectNode attrs st).2.2.2 ≠ none := by
  intro attrs
  induction attrs with
  | nil =>
    intro st a hmem _ _ _
    exact absurd hmem (List.not_mem_nil _)
  | cons slot rest ih =>
    intro st a hmem hstart hnone hdash
    cases slot with
    | none =>
      have hmem' : some a ∈ rest := by
        cases List.mem_cons.mp hmem with
        | inl h' => exact absurd h' (by simp)
        | inr h' => exact h'
      simp only [collectNode]
      exact ih st a hmem' hstart hnone hdash
    | some b =>
      simp only [collectNode]
      have h1 : (spreadStep b st).1.database.lookup a.value = none :=
        spreadStep_lookup_dashfree b st a.value hdash hnone
      by_cases hv : jsStartsWith b.value "::" = true
      · simp only [hv, if_true]
        cases hdb : List.lookup b.value (spreadStep b st).1.database with
        | none =>
          dsimp only
          simp
        | some p =>
          dsimp only
          have hmem' : some a ∈ rest := by
            cases List.mem_cons.mp hmem with
            | inl h' =>
              exfalso
              have hab : a = b := Option.some.inj h'
              subst hab
              rw [h1] at hdb
              exact Option.noConfusion hdb
            | inr h' => exact h'
          exact ih _ a hmem' hstart h1 hdash
      · simp only [hv, if_false]
        have hmem' : some a ∈ rest := by
          cases List.mem_cons.mp hmem with
          | inl h' =>
            exfalso
            have hab : a = b := Option.some.inj h'
            rw [hab] at hstart
            exact hv hstart
          | inr h' => exact h'
        exact ih _ a hmem' hstart h1 hdash

/-- An error-free prefix of the walk composes with the rest of the
walk. -/
theorem interp2_append_ok : ∀ (P Q : List Node2) (st : Eng2State),
    (interpolateAttributes2 P st).2.2 = none →
    interpolateAttributes2 (P ++ Q) st =
      ((interpolateAttributes2 P st).1 ++
         (interpolateAttributes2 Q (interpolateAttributes2 P st).2.1).1,
       (interpolateAttributes2 Q (interpolateAttributes2 P st).2.1).2) := by
  intro P
  induction P with
  | nil =>
    intro Q st _
    simp [interpolateAttributes2]
  | cons n rest ih =>
    intro Q st h
    simp only [List.cons_append, interpolateAttributes2]
    cases hp : (processNode2 n st).2.2 with
    | some e =>
      exfalso
      simp only [interpolateAttributes2, hp] at h
      exact Option.noConfusion h
    | none =>
      dsimp only
      have h' : (interpolateAttributes2 rest (processNode2 n st).2.1).2.2 = none := by
        simp only [interpolateAttributes2, hp] at h
        exact h
      simp only [List.append_eq]
      rw [ih Q _ h']
      simp [interpolateAttributes2, hp]

/-- C2: a direct-value marker attribute whose record id is absent from the
database (and dash-free, so no spread synthesis can ever create it) makes
attribute interpolation throw the synchronous lookup-failure error,
aborting the walk: the nodes before the failing one keep every binding
already applied, the failing node gets its attributes collected but no
dispatch binding (its setAttribute, handler, style and class surfaces are
exactly those of the input node), and the nodes after it stay untouched. -/
theorem claim2_lookup_failure_aborts
    (P S : List Node2) (nj : Node2) (st : Eng2State) (a : Attr2)
    (hpre : (interpolateAttributes2 P st).2.2 = none)
    (ha : some a ∈ nj.attrs)
    (hstart : jsStartsWith a.value "::" = true)
    (hmiss : (interpolateAttributes2 P st).2.1.database.lookup a.value = none)
    (hdash : '-' ∉ a.value.toList) :
    ∃ (attrs2 : List (Option Attr2)) (st2 : Eng2State) (rid2 : String),
      interpolateAttributes2 (P ++ nj :: S) st =
        ((interpolateAttributes2 P st).1 ++ { nj with attrs := attrs2 } :: S, st2,
         some (JsError.thrown (lookupFailureMessage rid2))) := by
  set st1 := (interpolateAttributes2 P st).2.1 with hst1
  have hne : (collectNode nj.attrs st1).2.2.2 ≠ none :=
    collectNode_err_missing nj.attrs st1 a ha hstart hmiss hdash
  obtain ⟨e, he⟩ := Option.ne_none_iff_exists'.mp hne
  obtain ⟨rid2, hrid⟩ := collectNode_err_shape nj.attrs st1 e he
  have hproc : processNode2 nj st1 =
      ({ nj with attrs := (collectNode nj.attrs st1).1 },
       (collectNode nj.attrs st1).2.1, some e) := by
    simp only [processNode2]
    rw [he]
  have hrun : interpolateAttributes2 (nj :: S) st1 =
      ({ nj with attrs := (collectNode nj.attrs st1).1 } :: S,
       (collectNode nj.attrs st1).2.1, some e) := by
    simp only [interpolateAttributes2, hproc]
  refine ⟨(collectNode nj.attrs st1).1, (collectNode nj.attrs st1).2.1, rid2, ?_⟩
  rw [interp2_append_ok P (nj :: S) st hpre]
  rw [← hst1, hrun, ← hrid]

/-- Witness record: a string-typed record the prefix node binds. -/
def claim2Rec0 : Rec :=
  { id := "::0", content := Content.str "x", classification := none }

/-- Witness state: one record, no signals. -/
def claim2St0 : Eng2State :=
  { database := [("::0", claim2Rec0)], signals := [], nextToken := 0 }

/-- Witness prefix node: binds the existing record. -/
def claim2Node0 : Node2 :=
  { attrs := [some { name := "color", value := "::0" }], outAttrs := [],
    handlers := [], styleProps := [], classes := [], currentState := [] }

/-- Witness failing node: references the absent id. -/
def claim2Node1 : Node2 :=
  { attrs := [some { name := "width", value := "::9" }], outAttrs := [],
    handlers := [], styleProps := [], classes := [], currentState := [] }

/-- Witness suffix node. -/
def claim2Node2 : Node2 :=
  { attrs := [], outAttrs := [], handlers := [], styleProps := [],
    classes := [], currentState := [] }

/-- The C2 theorem applied to the concrete three-node walk. -/
theorem claim2_witness :
    ∃ (attrs2 : List (Option Attr2)) (st2 : Eng2State) (rid2 : String),
      interpolateAttributes2 ([claim2Node0] ++ claim2Node1 :: [claim2Node2]) claim2St0 =
        ((interpolateAttributes2 [claim2Node0] claim2St0).1 ++
           { claim2Node1 with attrs := attrs2 } :: [claim2Node2], st2,
         some (JsError.thrown (lookupFailureMessage rid2))) :=
  claim2_lookup_failure_aborts [claim2Node0] [claim2Node2] claim2Node1 claim2St0
    { name := "width", value := "::9" }
    rfl (by decide) rfl rfl (by decide)

/-! ### Node Interpolation Engine (claim C9)

interpolateNodes collects every comment marker of the tree up front, then
per marker merges the nested invocation's record database into the parent
database, clears the nested one, and inserts the nested root's immediate
children after the marker; markers are removed at the end.  The tree type
and its operations (findType, after, remove, children) belong to the
missing XMLParser collaborator and are modelled from the spec's
description of the tree builder: nodes carry a host identity (the nid)
standing for JS object identity, and the nested databases live in a
reference-indexed store so that clearing one is observable. -/

/-- The host tree: elements with ordered children, comment nodes carrying
their data string, and text nodes. -/
inductive NTree where
  | elem (nid : Nat) (children : List NTree)
  | comment (nid : Nat) (content : String)
  | text (nid : Nat) (s : String)

/-- The host identity of a node. -/
def treeNid : NTree → Nat
  | NTree.elem i _ => i
  | NTree.comment i _ => i
  | NTree.text i _ => i

mutual

/-- All host identities in a tree. -/
def nidsOf : NTree → List Nat
  | NTree.elem i children => i :: nidsList children
  | NTree.comment i _ => [i]
  | NTree.text i _ => [i]

/-- All host identities in a forest. -/
def nidsList : List NTree → List Nat
  | [] => []
  | t :: rest => nidsOf t ++ nidsList rest

end

mutual

/-- Model of root.findType(1, node => node.content.startsWith('::')): the
comment markers of the tree in document (preorder) order, as (nid, data)
pairs. -/
def findMarkers : NTree → List (Nat × String)
  | NTree.elem _ children => findMarkersList children
  | NTree.comment nid content =>
    if jsStartsWith content "::" then [(nid, content)] else []
  | NTree.text _ _ => []

/-- Marker collection over a forest. -/
def findMarkersList : List NTree → List (Nat × String)
  | [] => []
  | t :: rest => findMarkers t ++ findMarkersList rest

end

mutual

/-- Model of commentNode.after(...nodes): insert the nodes immediately
after the first node (in preorder) carrying the identity. -/
def insertAfter (nid : Nat) (new : List NTree) : NTree → NTree
  | NTree.elem i children => NTree.elem i (insertAfterList nid new children)
  | NTree.comment i c => NTree.comment i c
  | NTree.text i s => NTree.text i s

/-- after over a forest: the new nodes enter right after the matching
sibling; non-matching siblings are searched recursively. -/
def insertAfterList (nid : Nat) (new : List NTree) : List NTree → List NTree
  | [] => []
  | t :: rest =>
    if treeNid t = nid then t :: (new ++ rest)
    else insertAfter nid new t :: insertAfterList nid new rest

end

mutual

/-- Model of node.remove(): detach every node carrying the identity. -/
def removeNid (nid : Nat) : NTree → NTree
  | NTree.elem i children => NTree.elem i (removeNidList nid children)
  | NTree.comment i c => NTree.comment i c
  | NTree.text i s => NTree.text i s

/-- remove over a forest. -/
def removeNidList (nid : Nat) : List NTree → List NTree
  | [] => []
  | t :: rest =>
    if treeNid t = nid then removeNidList nid rest
    else removeNid nid t :: removeNidList nid rest

end

/-- A completed nested template-invocation result: the nested root's
children and the reference to the nested record database. -/
structure TmplResult where
  rootChildren : List NTree
  ctxRef : Nat

/-- What a C9 record can hold: a completed nested result, or any other
value (whose destructuring yields an undefined context, so the merge
loop throws). -/
inductive Rec9Content where
  | tmpl (t : TmplResult)
  | other (c : Content)

/-- A record as the node engine sees it. -/
structure Rec9 where
  id : String
  content : Rec9Content

/-- State of the node engine: the parent database, the store of nested
databases by reference, and the emitted console warnings. -/
structure St9 where
  database : List (String × Rec9)
  ctxStore : List (Nat × List (String × Rec9))
  warnings : List String

/-- remoteContext.forEach((value, key) => database.set(key, value)): merge
the nested entries into the database in iteration order. -/
def mergeEntries (db : List (String × Rec9)) : List (String × Rec9) → List (String × Rec9)
  | [] => db
  | (k, v) :: rest => mergeEntries (jsMapSet db k v) rest

/-- The console.warn text for a marker that contributed no nodes. -/
def noNodesWarning (data : String) : String :=
  "Warning: no new nodes were added for " ++ data

/-- One marker of the node-interpolation loop: a missing record warns and
inserts nothing; a template record merges the nested database into the
parent, clears the nested one, and inserts the nested children after the
marker (warning instead when there are none); any other record content
throws when the undefined context is iterated. -/
def processMarker (tree : NTree) (st : St9) (m : Nat × String) :
    NTree × St9 × Option JsError :=
  match List.lookup m.2 st.database with
  | none =>
    (tree, { st with warnings := st.warnings ++ [noNodesWarning m.2] }, none)
  | some record =>
    match record.content with
    | Rec9Content.tmpl t =>
      let remoteCtx := (st.ctxStore.lookup t.ctxRef).getD []
      let ctx2 := st.ctxStore.map (fun p => if p.1 = t.ctxRef then (p.1, ([] : List (String × Rec9))) else p)
      let st2 := { st with database := mergeEntries st.database remoteCtx, ctxStore := ctx2 }
      if t.rootChildren.isEmpty then
        (tree, { st2 with warnings := st2.warnings ++ [noNodesWarning m.2] }, none)
      else
        (insertAfter m.1 t.rootChildren tree, st2, none)
    | Rec9Content.other _ =>
      (tree, st, some (JsError.typeError "remoteContext.forEach is not a function"))

/-- The marker loop; a thrown error unwinds keeping the mutations made so
far. -/
def processMarkers (tree : NTree) (st : St9) :
    List (Nat × String) → NTree × St9 × Option JsError
  | [] => (tree, st, none)
  | m :: rest =>
    let r := processMarker tree st m
    match r.2.2 with
    | some e => (r.1, r.2.1, some e)
    | none => processMarkers r.1 r.2.1 rest

/-- The final removal loop over the collected markers. -/
def removeAll : List Nat → NTree → NTree
  | [], t => t
  | nid :: rest, t => removeAll rest (removeNid nid t)

/-- interpolateNodes: collect the markers up front, process them in
document order, then remove every marker node (the removal loop is not
reached when a marker throws). -/
def interpolateNodes (root : NTree) (st : St9) : NTree × St9 × Option JsError :=
  let markers := findMarkers root
  if markers.isEmpty then (root, st, none)
  else
    let r := processMarkers root st markers
    match r.2.2 with
    | some e => (r.1, r.2.1, some e)
    | none => (removeAll (markers.map Prod.fst) r.1, r.2.1, none)

/-- A node's identity is among its tree's identities. -/
theorem treeNid_mem_nidsOf (t : NTree) : treeNid t ∈ nidsOf t := by
  cases t <;> simp [treeNid, nidsOf]

/-- Marker collection distributes over forest concatenation. -/
theorem findMarkersList_append (a b : List NTree) :
    findMarkersList (a ++ b) = findMarkersList a ++ findMarkersList b := by
  induction a with
  | nil => rfl
  | cons t rest ih => simp [findMarkersList, ih]

/-- Identity collection distributes over forest concatenation. -/
theorem nidsList_append (a b : List NTree) :
    nidsList (a ++ b) = nidsList a ++ nidsList b := by
  induction a with
  | nil => rfl
  | cons t rest ih => simp [nidsList, ih]

mutual

/-- Insertion leaves a tree without the identity unchanged. -/
theorem insertAfter_fresh (nid : Nat) (new : List NTree) :
    ∀ (t : NTree), nid ∉ nidsOf t → insertAfter nid new t = t
  | NTree.elem i children, h => by
    simp only [insertAfter]
    rw [insertAfterList_fresh nid new children
      (fun hm => h (by simp only [nidsOf, List.mem_cons]; exact Or.inr hm))]
  | NTree.comment i c, _ => rfl
  | NTree.text i s, _ => rfl

/-- Insertion leaves a forest without the identity unchanged. -/
theorem insertAfterList_fresh (nid : Nat) (new : List NTree) :
    ∀ (l : List NTree), nid ∉ nidsList l → insertAfterList nid new l = l
  | [], _ => rfl
  | t :: rest, h => by
    have h1 : nid ∉ nidsOf t :=
      fun hm => h (by simp only [nidsList, List.mem_append]; exact Or.inl hm)
    have h2 : nid ∉ nidsList rest :=
      fun hm => h (by simp only [nidsList, List.mem_append]; exact Or.inr hm)
    have h3 : treeNid t ≠ nid := fun he => h1 (he ▸ treeNid_mem_nidsOf t)
    simp only [insertAfterList, if_neg h3]
    rw [insertAfter_fresh nid new t h1, insertAfterList_fresh nid new rest h2]

end

/-- Insertion after a comment marker whose identity is fresh in the
preceding siblings lands immediately after the marker. -/
theorem insertAfterList_at (nid : Nat) (new : List NTree) (c : String) :
    ∀ (pre rest : List NTree), nid ∉ nidsList pre →
      insertAfterList nid new (pre ++ NTree.comment nid c :: rest) =
        pre ++ NTree.comment nid c :: (new ++ rest)
  | [], rest, _ => by
    simp [insertAfterList, treeNid]
  | t :: pre, rest, h => by
    have h1 : nid ∉ nidsOf t :=
      fun hm => h (by simp only [nidsList, List.mem_append]; exact Or.inl hm)
    have h2 : nid ∉ nidsList pre :=
      fun hm => h (by simp only [nidsList, List.mem_append]; exact Or.inr hm)
    have h3 : treeNid t ≠ nid := fun he => h1 (he ▸ treeNid_mem_nidsOf t)
    simp only [List.cons_append, insertAfterList, if_neg h3, List.append_eq]
    rw [insertAfter_fresh nid new t h1, insertAfterList_at nid new c pre rest h2]

mutual

/-- Removal leaves a tree without the identity unchanged. -/
theorem removeNid_fresh (nid : Nat) :
    ∀ (t : NTree), nid ∉ nidsOf t → removeNid nid t = t
  | NTree.elem i children, h => by
    simp only [removeNid]
    rw [removeNidList_fresh nid children
      (fun hm => h (by simp only [nidsOf, List.mem_cons]; exact Or.inr hm))]
  | NTree.comment i c, _ => rfl
  | NTree.text i s, _ => rfl

/-- Removal leaves a forest without the identity unchanged. -/
theorem removeNidList_fresh (nid : Nat) :
    ∀ (l : List NTree), nid ∉ nidsList l → removeNidList nid l = l
  | [], _ => rfl
  | t :: rest, h => by
    have h1 : nid ∉ nidsOf t :=
      fun hm => h (by simp only [nidsList, List.mem_append]; exact Or.inl hm)
    have h2 : nid ∉ nidsList rest :=
      fun hm => h (by simp only [nidsList, List.mem_append]; exact Or.inr hm)
    have h3 : treeNid t ≠ nid := fun he => h1 (he ▸ treeNid_mem_nidsOf t)
    simp only [removeNidList, if_neg h3]
    rw [removeNid_fresh nid t h1, removeNidList_fresh nid rest h2]

end

/-- Removing a comment marker whose identity is fresh elsewhere detaches
exactly that node. -/
theorem removeNidList_at (nid : Nat) (c : String) :
    ∀ (pre rest : List NTree), nid ∉ nidsList pre → nid ∉ nidsList rest →
      removeNidList nid (pre ++ NTree.comment nid c :: rest) = pre ++ rest
  | [], rest, _, hr => by
    simp only [List.nil_append, removeNidList, treeNid, if_pos rfl]
    exact removeNidList_fresh nid rest hr
  | t :: pre, rest, h, hr => by
    have h1 : nid ∉ nidsOf t :=
      fun hm => h (by simp only [nidsList, List.mem_append]; exact Or.inl hm)
    have h2 : nid ∉ nidsList pre :=
      fun hm => h (by simp only [nidsList, List.mem_append]; exact Or.inr hm)
    have h3 : treeNid t ≠ nid := fun he => h1 (he ▸ treeNid_mem_nidsOf t)
    simp only [List.cons_append, removeNidList, if_neg h3, List.append_eq]
    rw [removeNid_fresh nid t h1, removeNidList_at nid c pre rest h2 hr]

/-! #### The general node-import theorem (claim C9)

The claim is settled as a refinement: over an arbitrary host tree with
arbitrarily many markers at arbitrary depth, the engine run is proved
equal to a spec-side reference model — the final tree is the in-place
replacement of every marker by the children its record resolved to at
processing time (nothing, plus a diagnostic, for a missing record or an
empty nested result), and the final state is the spec's marker walk
(copy the nested entries into the parent database, then empty the nested
one).  The development below builds the identity-discipline machinery
(occurrence counts, element-freeness of marker identities) needed to
relate the engine's insert-then-remove tree surgery to the one-pass
substitution. -/

mutual

/-- Number of nodes carrying the identity. -/
def countNid (n : Nat) : NTree → Nat
  | NTree.elem i children => (if i = n then 1 else 0) + countNidList n children
  | NTree.comment i _ => if i = n then 1 else 0
  | NTree.text i _ => if i = n then 1 else 0

/-- Node count over a forest. -/
def countNidList (n : Nat) : List NTree → Nat
  | [] => 0
  | t :: rest => countNid n t + countNidList n rest

end

mutual

/-- No element node carries the identity: every node with this identity
is a childless leaf, so detaching one never drags other nodes along. -/
def noElemNid (a : Nat) : NTree → Prop
  | NTree.elem i children => i ≠ a ∧ noElemNidList a children
  | NTree.comment _ _ => True
  | NTree.text _ _ => True

/-- Element-freeness over a forest. -/
def noElemNidList (a : Nat) : List NTree → Prop
  | [] => True
  | t :: rest => noElemNid a t ∧ noElemNidList a rest

end

mutual

/-- Spec model: in-place replacement of every node the assignment maps by
its import forest — the claim's marker replaced by exactly its children
in original order, a marker with no imports replaced by nothing. -/
def substMarkers (f : Nat → Option (List NTree)) : NTree → NTree
  | NTree.elem i children => NTree.elem i (substForest f children)
  | NTree.comment i c => NTree.comment i c
  | NTree.text i s => NTree.text i s

/-- Replacement over a forest. -/
def substForest (f : Nat → Option (List NTree)) : List NTree → List NTree
  | [] => []
  | t :: rest =>
    match f (treeNid t) with
    | some kids => kids ++ substForest f rest
    | none => substMarkers f t :: substForest f rest

end

/-- The assignment replacing one identity by one forest. -/
def substOne (n : Nat) (ks : List NTree) : Nat → Option (List NTree) :=
  fun m => if m = n then some ks else none

/-- The per-marker insertions of the walk, folded in document order. -/
def insertFold : List (Nat × List NTree) → NTree → NTree
  | [], t => t
  | (n, ks) :: rest, t => insertFold rest (insertAfter n ks t)

/-- Spec model of the marker walk: per marker, in document order, copy
every nested-database entry into the parent database and empty the nested
one, and assign the nested root's children to the marker; a missing
record or an empty nested result assigns nothing and emits the
diagnostic; a record holding anything but a completed nested result
faults.  Returns the final state, the per-marker import assignment, and
the fault. -/
def importAssignments : List (Nat × String) → St9 →
    St9 × List (Nat × List NTree) × Option JsError
  | [], st => (st, [], none)
  | (nid, c) :: rest, st =>
    match List.lookup c st.database with
    | none =>
      let r := importAssignments rest
        { st with warnings := st.warnings ++ [noNodesWarning c] }
      (r.1, (nid, []) :: r.2.1, r.2.2)
    | some record =>
      match record.content with
      | Rec9Content.tmpl t =>
        let remoteCtx := (st.ctxStore.lookup t.ctxRef).getD []
        let ctx2 := st.ctxStore.map (fun p => if p.1 = t.ctxRef then (p.1, ([] : List (String × Rec9))) else p)
        let st2 := { st with database := mergeEntries st.database remoteCtx, ctxStore := ctx2 }
        if t.rootChildren.isEmpty then
          let r := importAssignments rest
            { st2 with warnings := st2.warnings ++ [noNodesWarning c] }
          (r.1, (nid, []) :: r.2.1, r.2.2)
        else
          let r := importAssignments rest st2
          (r.1, (nid, t.rootChildren) :: r.2.1, r.2.2)
      | Rec9Content.other _ =>
        (st, [], some (JsError.typeError "remoteContext.forEach is not a function"))

/-- All record values held anywhere in a state: the parent database and
every nested database. -/
def stRecordValues (st : St9) : List Rec9 :=
  st.database.map Prod.snd ++ (st.ctxStore.map (fun p => p.2.map Prod.snd)).join

/-- The import-forest identities a record can contribute. -/
def recKidNids (r : Rec9) : List Nat :=
  match r.content with
  | Rec9Content.tmpl t => nidsList t.rootChildren
  | Rec9Content.other _ => []

/-- Insertion preserves the root identity. -/
theorem treeNid_insertAfter (b : Nat) (ks : List NTree) (t : NTree) :
    treeNid (insertAfter b ks t) = treeNid t := by
  cases t <;> rfl

/-- Removal preserves the root identity. -/
theorem treeNid_removeNid (a : Nat) (t : NTree) :
    treeNid (removeNid a t) = treeNid t := by
  cases t <;> rfl

/-- Replacement preserves the root identity. -/
theorem treeNid_subst (f : Nat → Option (List NTree)) (t : NTree) :
    treeNid (substMarkers f t) = treeNid t := by
  cases t <;> rfl

mutual

/-- The node count is the multiplicity of the identity among all
identities. -/
theorem countNid_eq_count (n : Nat) : ∀ (t : NTree), countNid n t = List.count n (nidsOf t)
  | NTree.elem i children => by
    simp only [countNid, nidsOf, List.count_cons]
    rw [countNidList_eq_count n children]
    by_cases h : i = n
    · simp [h]
      omega
    · have hb : (n == i) = false := beq_eq_false_iff_ne.mpr (Ne.symm h)
      simp [h, hb]
  | NTree.comment i c => by
    simp only [countNid, nidsOf]
    by_cases h : i = n
    · simp [h]
    · have hb : (n == i) = false := beq_eq_false_iff_ne.mpr (Ne.symm h)
      simp [h, hb, List.count_cons]
  | NTree.text i s => by
    simp only [countNid, nidsOf]
    by_cases h : i = n
    · simp [h]
    · have hb : (n == i) = false := beq_eq_false_iff_ne.mpr (Ne.symm h)
      simp [h, hb, List.count_cons]

/-- Forest version of the count correspondence. -/
theorem countNidList_eq_count (n : Nat) : ∀ (l : List NTree),
    countNidList n l = List.count n (nidsList l)
  | [] => rfl
  | t :: rest => by
    simp only [countNidList, nidsList, List.count_append]
    rw [countNid_eq_count n t, countNidList_eq_count n rest]

end

/-- Absence is zero count. -/
theorem countNid_eq_zero {n : Nat} {t : NTree} : countNid n t = 0 ↔ n ∉ nidsOf t := by
  rw [countNid_eq_count]
  exact List.count_eq_zero

/-- Forest version of zero count. -/
theorem countNidList_eq_zero {n : Nat} {l : List NTree} :
    countNidList n l = 0 ↔ n ∉ nidsList l := by
  rw [countNidList_eq_count]
  exact List.count_eq_zero

/-- Removal distributes over forest concatenation. -/
theorem removeNidList_append (a : Nat) (x y : List NTree) :
    removeNidList a (x ++ y) = removeNidList a x ++ removeNidList a y := by
  induction x with
  | nil => rfl
  | cons t rest ih =>
    simp only [List.cons_append, removeNidList, List.append_eq]
    by_cases h : treeNid t = a
    · rw [if_pos h, if_pos h, ih]
    · rw [if_neg h, if_neg h, ih]
      rfl

mutual

/-- Inserting an empty forest changes nothing. -/
theorem insertAfter_nil (n : Nat) : ∀ (t : NTree), insertAfter n [] t = t
  | NTree.elem i children => by
    simp only [insertAfter]
    rw [insertAfterList_nil n children]
  | NTree.comment i c => rfl
  | NTree.text i s => rfl

/-- Forest version of empty insertion. -/
theorem insertAfterList_nil (n : Nat) : ∀ (l : List NTree), insertAfterList n [] l = l
  | [] => rfl
  | t :: rest => by
    simp only [insertAfterList]
    by_cases h : treeNid t = n
    · rw [if_pos h]
      simp
    · rw [if_neg h, insertAfter_nil n t, insertAfterList_nil n rest]

end

mutual

/-- An identity absent from a tree is element-free in it. -/
theorem noElemNid_of_not_mem (a : Nat) : ∀ (t : NTree), a ∉ nidsOf t → noElemNid a t
  | NTree.elem i children, h => by
    refine ⟨fun he => h ?_, noElemNidList_of_not_mem a children (fun hm => h ?_)⟩
    · simp [nidsOf, he]
    · simp only [nidsOf, List.mem_cons]
      exact Or.inr hm
  | NTree.comment i c, _ => trivial
  | NTree.text i s, _ => trivial

/-- Forest version of element-freeness by absence. -/
theorem noElemNidList_of_not_mem (a : Nat) :
    ∀ (l : List NTree), a ∉ nidsList l → noElemNidList a l
  | [], _ => trivial
  | t :: rest, h =>
    ⟨noElemNid_of_not_mem a t
       (fun hm => h (by simp only [nidsList, List.mem_append]; exact Or.inl hm)),
     noElemNidList_of_not_mem a rest
       (fun hm => h (by simp only [nidsList, List.mem_append]; exact Or.inr hm))⟩

end

/-- Element-freeness splits over forest concatenation. -/
theorem noElemNidList_append (a : Nat) (x y : List NTree) :
    noElemNidList a (x ++ y) ↔ noElemNidList a x ∧ noElemNidList a y := by
  induction x with
  | nil => simp [noElemNidList]
  | cons t rest ih =>
    simp only [List.cons_append, noElemNidList, List.append_eq, ih, and_assoc]

/-- Node counts split over forest concatenation. -/
theorem countNidList_append (m : Nat) (x y : List NTree) :
    countNidList m (x ++ y) = countNidList m x + countNidList m y := by
  induction x with
  | nil =>
    simp only [List.nil_append, countNidList]
    omega
  | cons t rest ih =>
    simp only [List.cons_append, countNidList, List.append_eq, ih]
    omega

mutual

/-- Insertion preserves element-freeness when the inserted forest is free
of the identity. -/
theorem noElemNid_insertAfter (a b : Nat) (ks : List NTree) (hks : a ∉ nidsList ks) :
    ∀ (t : NTree), noElemNid a t → noElemNid a (insertAfter b ks t)
  | NTree.elem i children, h => by
    simp only [insertAfter]
    exact ⟨h.1, noElemNidList_insertAfter a b ks hks children h.2⟩
  | NTree.comment i c, _ => trivial
  | NTree.text i s, _ => trivial

/-- Forest version of insertion element-freeness. -/
theorem noElemNidList_insertAfter (a b : Nat) (ks : List NTree) (hks : a ∉ nidsList ks) :
    ∀ (l : List NTree), noElemNidList a l → noElemNidList a (insertAfterList b ks l)
  | [], _ => trivial
  | t :: rest, h => by
    simp only [insertAfterList]
    by_cases hb : treeNid t = b
    · rw [if_pos hb]
      exact ⟨h.1, (noElemNidList_append a ks rest).mpr
        ⟨noElemNidList_of_not_mem a ks hks, h.2⟩⟩
    · rw [if_neg hb]
      exact ⟨noElemNid_insertAfter a b ks hks t h.1,
        noElemNidList_insertAfter a b ks hks rest h.2⟩

end

/-- Replacement distributes over forest concatenation. -/
theorem substForest_append (f : Nat → Option (List NTree)) (x y : List NTree) :
    substForest f (x ++ y) = substForest f x ++ substForest f y := by
  induction x with
  | nil => rfl
  | cons t rest ih =>
    simp only [List.cons_append, substForest, List.append_eq]
    cases f (treeNid t) with
    | some kids =>
      dsimp only
      rw [ih, List.append_assoc]
    | none =>
      dsimp only
      rw [ih]
      rfl

mutual

/-- A replacement mapping every identity of the tree to nothing changes
nothing. -/
theorem substMarkers_fresh (f : Nat → Option (List NTree)) :
    ∀ (t : NTree), (∀ m ∈ nidsOf t, f m = none) → substMarkers f t = t
  | NTree.elem i children, h => by
    simp only [substMarkers]
    rw [substForest_fresh f children
      (fun m hm => h m (by simp only [nidsOf, List.mem_cons]; exact Or.inr hm))]
  | NTree.comment i c, _ => rfl
  | NTree.text i s, _ => rfl

/-- Forest version of vacuous replacement. -/
theorem substForest_fresh (f : Nat → Option (List NTree)) :
    ∀ (l : List NTree), (∀ m ∈ nidsList l, f m = none) → substForest f l = l
  | [], _ => rfl
  | t :: rest, h => by
    simp only [substForest]
    rw [h (treeNid t)
      (by simp only [nidsList, List.mem_append]; exact Or.inl (treeNid_mem_nidsOf t))]
    dsimp only
    rw [substMarkers_fresh f t
      (fun m hm => h m (by simp only [nidsList, List.mem_append]; exact Or.inl hm))]
    rw [substForest_fresh f rest
      (fun m hm => h m (by simp only [nidsList, List.mem_append]; exact Or.inr hm))]

end

mutual

/-- Single-marker replacement preserves element-freeness when the import
forest is free of the identity. -/
theorem noElemNid_subst (a n : Nat) (ks : List NTree) (hks : a ∉ nidsList ks) :
    ∀ (t : NTree), noElemNid a t → noElemNid a (substMarkers (substOne n ks) t)
  | NTree.elem i children, h => by
    simp only [substMarkers]
    exact ⟨h.1, noElemNidList_subst a n ks hks children h.2⟩
  | NTree.comment i c, _ => trivial
  | NTree.text i s, _ => trivial

/-- Forest version of replacement element-freeness. -/
theorem noElemNidList_subst (a n : Nat) (ks : List NTree) (hks : a ∉ nidsList ks) :
    ∀ (l : List NTree), noElemNidList a l → noElemNidList a (substForest (substOne n ks) l)
  | [], _ => trivial
  | t :: rest, h => by
    simp only [substForest, substOne]
    by_cases hn : treeNid t = n
    · rw [if_pos hn]
      exact (noElemNidList_append a ks _).mpr
        ⟨noElemNidList_of_not_mem a ks hks, noElemNidList_subst a n ks hks rest h.2⟩
    · rw [if_neg hn]
      exact ⟨noElemNid_subst a n ks hks t h.1, noElemNidList_subst a n ks hks rest h.2⟩

end

mutual

/-- Single-marker replacement never increases the count of an identity
absent from the import forest. -/
theorem countNid_subst (m n : Nat) (ks : List NTree) (hm : m ∉ nidsList ks) :
    ∀ (t : NTree), countNid m (substMarkers (substOne n ks) t) ≤ countNid m t
  | NTree.elem i children => by
    simp only [substMarkers, countNid]
    have h1 := countNidList_subst m n ks hm children
    omega
  | NTree.comment i c => le_refl _
  | NTree.text i s => le_refl _

/-- Forest version of replacement count monotonicity. -/
theorem countNidList_subst (m n : Nat) (ks : List NTree) (hm : m ∉ nidsList ks) :
    ∀ (l : List NTree),
      countNidList m (substForest (substOne n ks) l) ≤ countNidList m l
  | [] => le_refl _
  | t :: rest => by
    simp only [substForest, substOne]
    by_cases hn : treeNid t = n
    · rw [if_pos hn]
      dsimp only
      rw [countNidList_append]
      have h0 : countNidList m ks = 0 := countNidList_eq_zero.mpr hm
      have h1 := countNidList_subst m n ks hm rest
      simp only [countNidList]
      omega
    · rw [if_neg hn]
      dsimp only
      simp only [countNidList]
      have h1 := countNid_subst m n ks hm t
      have h2 := countNidList_subst m n ks hm rest
      omega

end

/-- A node contributes its own identity to the count. -/
theorem one_le_countNid_of_treeNid {n : Nat} {t : NTree} (h : treeNid t = n) :
    1 ≤ countNid n t := by
  cases t with
  | elem i ch =>
    simp only [treeNid] at h
    simp only [countNid, if_pos h]
    omega
  | comment i c =>
    simp only [treeNid] at h
    simp only [countNid, if_pos h]
    omega
  | text i s =>
    simp only [treeNid] at h
    simp only [countNid, if_pos h]
    omega

mutual

/-- Detaching a childless identity commutes with inserting after another
identity, as long as the inserted forest is free of it. -/
theorem removeNid_insertAfter_comm (a b : Nat) (ks : List NTree)
    (hab : a ≠ b) (hks : a ∉ nidsList ks) :
    ∀ (t : NTree), noElemNid a t →
      removeNid a (insertAfter b ks t) = insertAfter b ks (removeNid a t)
  | NTree.elem i children, h => by
    simp only [insertAfter, removeNid]
    rw [removeNidList_insertAfterList_comm a b ks hab hks children h.2]
  | NTree.comment i c, _ => rfl
  | NTree.text i s, _ => rfl

/-- Forest version of the commutation. -/
theorem removeNidList_insertAfterList_comm (a b : Nat) (ks : List NTree)
    (hab : a ≠ b) (hks : a ∉ nidsList ks) :
    ∀ (l : List NTree), noElemNidList a l →
      removeNidList a (insertAfterList b ks l) =
        insertAfterList b ks (removeNidList a l)
  | [], _ => rfl
  | t :: rest, h => by
    by_cases hb : treeNid t = b
    · have hta : treeNid t ≠ a := fun he => hab (by rw [← he, hb])
      simp only [insertAfterList, removeNidList, treeNid_removeNid,
        if_pos hb, if_neg hta]
      rw [removeNidList_append, removeNidList_fresh a ks hks]
    · by_cases hta : treeNid t = a
      · cases t with
        | elem i ch => exact absurd hta h.1.1
        | comment i c =>
          simp only [insertAfterList, removeNidList, insertAfter, if_neg hb, if_pos hta]
          exact removeNidList_insertAfterList_comm a b ks hab hks rest h.2
        | text i s =>
          simp only [insertAfterList, removeNidList, insertAfter, if_neg hb, if_pos hta]
          exact removeNidList_insertAfterList_comm a b ks hab hks rest h.2
      · simp only [insertAfterList, removeNidList, treeNid_insertAfter,
          treeNid_removeNid, if_neg hb, if_neg hta]
        rw [removeNid_insertAfter_comm a b ks hab hks t h.1,
          removeNidList_insertAfterList_comm a b ks hab hks rest h.2]

end

mutual

/-- Inserting after an identity that occurs at most once and then
detaching it is exactly the in-place replacement by the inserted
forest. -/
theorem removeNid_insertAfter_self (n : Nat) (ks : List NTree) (hks : n ∉ nidsList ks) :
    ∀ (t : NTree), countNid n t ≤ 1 →
      removeNid n (insertAfter n ks t) = substMarkers (substOne n ks) t
  | NTree.elem i children, hc => by
    have hc' : countNidList n children ≤ 1 := by
      simp only [countNid] at hc
      by_cases h : i = n
      · rw [if_pos h] at hc
        omega
      · rw [if_neg h] at hc
        omega
    simp only [insertAfter, removeNid, substMarkers]
    rw [removeNidList_insertAfterList_self n ks hks children hc']
  | NTree.comment i c, _ => rfl
  | NTree.text i s, _ => rfl

/-- Forest version of the replacement identity. -/
theorem removeNidList_insertAfterList_self (n : Nat) (ks : List NTree)
    (hks : n ∉ nidsList ks) :
    ∀ (l : List NTree), countNidList n l ≤ 1 →
      removeNidList n (insertAfterList n ks l) = substForest (substOne n ks) l
  | [], _ => rfl
  | t :: rest, hc => by
    have hsplit : countNid n t + countNidList n rest ≤ 1 := by
      simp only [countNidList] at hc
      exact hc
    by_cases hn : treeNid t = n
    · have ht1 : 1 ≤ countNid n t := one_le_countNid_of_treeNid hn
      have hrest0 : countNidList n rest = 0 := by omega
      have hrestnm : n ∉ nidsList rest := countNidList_eq_zero.mp hrest0
      simp only [insertAfterList, removeNidList, if_pos hn]
      rw [removeNidList_append, removeNidList_fresh n ks hks,
        removeNidList_fresh n rest hrestnm]
      simp only [substForest, substOne, if_pos hn]
      rw [substForest_fresh (substOne n ks) rest
        (fun m hm => by
          simp only [substOne]
          rw [if_neg (fun he => hrestnm (by rw [← he]; exact hm))])]
    · have hc1 : countNid n t ≤ 1 := by omega
      have hc2 : countNidList n rest ≤ 1 := by omega
      simp only [insertAfterList, removeNidList, treeNid_insertAfter, if_neg hn]
      rw [removeNid_insertAfter_self n ks hks t hc1,
        removeNidList_insertAfterList_self n ks hks rest hc2]
      simp only [substForest, substOne, if_neg hn]

end

mutual

/-- A further replacement applied after a single-marker replacement
whose forest it ignores combines into one replacement. -/
theorem substMarkers_substOne (n : Nat) (ks : List NTree)
    (g : Nat → Option (List NTree)) (hg : ∀ m ∈ nidsList ks, g m = none) :
    ∀ (t : NTree),
      substMarkers g (substMarkers (substOne n ks) t) =
        substMarkers (fun m => if m = n then some ks else g m) t
  | NTree.elem i children => by
    simp only [substMarkers]
    rw [substForest_substOne n ks g hg children]
  | NTree.comment i c => rfl
  | NTree.text i s => rfl

/-- Forest version of replacement composition. -/
theorem substForest_substOne (n : Nat) (ks : List NTree)
    (g : Nat → Option (List NTree)) (hg : ∀ m ∈ nidsList ks, g m = none) :
    ∀ (l : List NTree),
      substForest g (substForest (substOne n ks) l) =
        substForest (fun m => if m = n then some ks else g m) l
  | [] => rfl
  | t :: rest => by
    by_cases hn : treeNid t = n
    · simp only [substForest, substOne, if_pos hn]
      rw [substForest_append, substForest_fresh g ks hg,
        substForest_substOne n ks g hg rest]
    · simp only [substForest, substOne, treeNid_subst, if_neg hn]
      cases hgt : g (treeNid t) with
      | some kids =>
        dsimp only
        rw [substForest_substOne n ks g hg rest]
      | none =>
        dsimp only
        rw [substMarkers_substOne n ks g hg t, substForest_substOne n ks g hg rest]

end

/-- Detaching a childless identity distinct from all fold markers and
absent from all fold forests commutes past the whole insertion fold. -/
theorem removeNid_insertFold_comm (a : Nat) :
    ∀ (asgn : List (Nat × List NTree)) (t : NTree),
      (∀ q ∈ asgn, a ≠ q.1 ∧ a ∉ nidsList q.2) →
      noElemNid a t →
      removeNid a (insertFold asgn t) = insertFold asgn (removeNid a t)
  | [], _, _, _ => rfl
  | (m, ks') :: rest, t, hq, hne => by
    have hm := hq (m, ks') (List.mem_cons_self _ _)
    simp only [insertFold]
    rw [removeNid_insertFold_comm a rest (insertAfter m ks' t)
        (fun q hq' => hq q (List.mem_cons_of_mem _ hq'))
        (noElemNid_insertAfter a m ks' hm.2 t hne)]
    rw [removeNid_insertAfter_comm a m ks' hm.1 hm.2 t hne]

/-- The engine's tree surgery — insert each import forest after its
marker in document order, then detach every marker — equals the one-pass
in-place replacement of each marker by its forest. -/
theorem removeAll_insertFold (asgn : List (Nat × List NTree)) :
    ∀ (tree : NTree),
      (asgn.map Prod.fst).Nodup →
      (∀ p ∈ asgn, countNid p.1 tree ≤ 1) →
      (∀ p ∈ asgn, noElemNid p.1 tree) →
      (∀ p ∈ asgn, ∀ q ∈ asgn, p.1 ∉ nidsList q.2) →
      removeAll (asgn.map Prod.fst) (insertFold asgn tree) =
        substMarkers (fun m => List.lookup m asgn) tree := by
  induction asgn with
  | nil =>
    intro tree _ _ _ _
    exact (substMarkers_fresh _ tree (fun m _ => rfl)).symm
  | cons hd rest ih =>
    intro tree hnodup hcount hnoelem hown
    obtain ⟨n, ks⟩ := hd
    have hhd : (n, ks) ∈ (n, ks) :: rest := List.mem_cons_self _ _
    have hks_n : n ∉ nidsList ks := hown (n, ks) hhd (n, ks) hhd
    have hc1 : countNid n tree ≤ 1 := hcount (n, ks) hhd
    have hne1 : noElemNid n tree := hnoelem (n, ks) hhd
    have hnodup' : n ∉ rest.map Prod.fst ∧ (rest.map Prod.fst).Nodup := by
      rw [List.map_cons] at hnodup
      exact List.nodup_cons.mp hnodup
    simp only [List.map_cons, insertFold, removeAll]
    rw [removeNid_insertFold_comm n rest (insertAfter n ks tree)
        (fun q hq => ⟨fun he => hnodup'.1 (he ▸ List.mem_map_of_mem Prod.fst hq),
          hown (n, ks) hhd q (List.mem_cons_of_mem _ hq)⟩)
        (noElemNid_insertAfter n n ks hks_n tree hne1)]
    rw [removeNid_insertAfter_self n ks hks_n tree hc1]
    rw [ih (substMarkers (substOne n ks) tree) hnodup'.2
        (fun p hp => le_trans
          (countNid_subst p.1 n ks (hown p (List.mem_cons_of_mem _ hp) (n, ks) hhd) tree)
          (hcount p (List.mem_cons_of_mem _ hp)))
        (fun p hp => noElemNid_subst p.1 n ks
          (hown p (List.mem_cons_of_mem _ hp) (n, ks) hhd) tree
          (hnoelem p (List.mem_cons_of_mem _ hp)))
        (fun p hp q hq => hown p (List.mem_cons_of_mem _ hp) q (List.mem_cons_of_mem _ hq))]
    have hg : ∀ m ∈ nidsList ks, List.lookup m rest = none := by
      intro m hm
      refine lookup_eq_none_of_not_mem_keys (fun hmem => ?_)
      obtain ⟨p, hp, hp1⟩ := List.mem_map.mp hmem
      exact hown p (List.mem_cons_of_mem _ hp) (n, ks) hhd (hp1 ▸ hm)
    rw [substMarkers_substOne n ks _ hg tree]
    have hfun : (fun m => if m = n then some ks else List.lookup m rest) =
        (fun m => List.lookup m ((n, ks) :: rest)) := by
      funext m
      by_cases h : m = n
      · have hb : (m == n) = true := beq_iff_eq.mpr h
        simp [List.lookup, hb, h]
      · have hb : (m == n) = false := beq_eq_false_iff_ne.mpr h
        simp [List.lookup, hb, h]
    rw [hfun]

mutual

/-- The marker identities are drawn one each from the tree's nodes. -/
theorem findMarkers_fst_sublist :
    ∀ (t : NTree), ((findMarkers t).map Prod.fst).Sublist (nidsOf t)
  | NTree.elem i children => by
    simp only [findMarkers, nidsOf]
    exact (findMarkersList_fst_sublist children).cons _
  | NTree.comment i c => by
    simp only [findMarkers, nidsOf]
    by_cases h : jsStartsWith c "::" = true
    · rw [if_pos h]
      exact List.Sublist.refl _
    · rw [if_neg h]
      exact List.nil_sublist _
  | NTree.text i s => List.nil_sublist _

/-- Forest version of the marker-identity sublist. -/
theorem findMarkersList_fst_sublist :
    ∀ (l : List NTree), ((findMarkersList l).map Prod.fst).Sublist (nidsList l)
  | [] => List.Sublist.refl _
  | t :: rest => by
    simp only [findMarkersList, nidsList, List.map_append]
    exact (findMarkers_fst_sublist t).append (findMarkersList_fst_sublist rest)

end

mutual

/-- A marker contributes its identity to the node count. -/
theorem one_le_countNid_of_marker (nid : Nat) (c : String) :
    ∀ (t : NTree), (nid, c) ∈ findMarkers t → 1 ≤ countNid nid t
  | NTree.elem i children, h => by
    simp only [findMarkers] at h
    have h1 := one_le_countNidList_of_marker nid c children h
    simp only [countNid]
    omega
  | NTree.comment i c', h => by
    simp only [findMarkers] at h
    by_cases hs : jsStartsWith c' "::" = true
    · rw [if_pos hs] at h
      obtain ⟨h1, h2⟩ := Prod.mk.inj (List.mem_singleton.mp h)
      simp only [countNid, if_pos h1.symm]
      omega
    · rw [if_neg hs] at h
      exact absurd h (List.not_mem_nil _)
  | NTree.text i s, h => absurd h (List.not_mem_nil _)

/-- Forest version of marker counting. -/
theorem one_le_countNidList_of_marker (nid : Nat) (c : String) :
    ∀ (l : List NTree), (nid, c) ∈ findMarkersList l → 1 ≤ countNidList nid l
  | [], h => absurd h (List.not_mem_nil _)
  | t :: rest, h => by
    simp only [findMarkersList, List.mem_append] at h
    simp only [countNidList]
    cases h with
    | inl h' =>
      have h1 := one_le_countNid_of_marker nid c t h'
      omega
    | inr h' =>
      have h1 := one_le_countNidList_of_marker nid c rest h'
      omega

end

mutual

/-- A marker identity occurring at most once belongs to the marker
comment alone, so it is element-free. -/
theorem noElemNid_of_marker (nid : Nat) (c : String) :
    ∀ (t : NTree), (nid, c) ∈ findMarkers t → countNid nid t ≤ 1 → noElemNid nid t
  | NTree.elem i children, h, hc => by
    simp only [findMarkers] at h
    have h1 := one_le_countNidList_of_marker nid c children h
    simp only [countNid] at hc
    refine ⟨fun he => ?_, noElemNidList_of_marker nid c children h ?_⟩
    · rw [if_pos he] at hc
      omega
    · by_cases he : i = nid
      · rw [if_pos he] at hc
        omega
      · rw [if_neg he] at hc
        omega
  | NTree.comment i c', _, _ => trivial
  | NTree.text i s, _, _ => trivial

/-- Forest version of marker element-freeness. -/
theorem noElemNidList_of_marker (nid : Nat) (c : String) :
    ∀ (l : List NTree), (nid, c) ∈ findMarkersList l → countNidList nid l ≤ 1 →
      noElemNidList nid l
  | [], h, _ => absurd h (List.not_mem_nil _)
  | t :: rest, h, hc => by
    simp only [findMarkersList, List.mem_append] at h
    simp only [countNidList] at hc
    cases h with
    | inl h' =>
      have h1 := one_le_countNid_of_marker nid c t h'
      exact ⟨noElemNid_of_marker nid c t h' (by omega),
        noElemNidList_of_not_mem nid rest (countNidList_eq_zero.mp (by omega))⟩
    | inr h' =>
      have h1 := one_le_countNidList_of_marker nid c rest h'
      exact ⟨noElemNid_of_not_mem nid t (countNid_eq_zero.mp (by omega)),
        noElemNidList_of_marker nid c rest h' (by omega)⟩

end

/-- When the spec walk runs without fault, the engine's marker loop
computes exactly the fold of the per-marker insertions on the tree and
the spec walk's state. -/
theorem processMarkers_spec :
    ∀ (ms : List (Nat × String)) (tree : NTree) (st : St9),
      (importAssignments ms st).2.2 = none →
      processMarkers tree st ms =
        (insertFold (importAssignments ms st).2.1 tree,
         (importAssignments ms st).1, none)
  | [], tree, st, _ => rfl
  | (nid, c) :: ms, tree, st, hok => by
    simp only [importAssignments] at hok ⊢
    simp only [processMarkers, processMarker]
    cases hdb : List.lookup c st.database with
    | none =>
      rw [hdb] at hok
      dsimp only at hok ⊢
      rw [processMarkers_spec ms tree _ hok]
      simp only [insertFold]
      rw [insertAfter_nil]
    | some record =>
      rw [hdb] at hok
      dsimp only at hok ⊢
      cases hct : record.content with
      | tmpl t =>
        rw [hct] at hok
        dsimp only at hok ⊢
        cases hemp : t.rootChildren.isEmpty with
        | true =>
          rw [hemp] at hok
          simp only [if_true] at hok ⊢
          rw [processMarkers_spec ms tree _ hok]
          simp only [insertFold]
          rw [insertAfter_nil]
        | false =>
          rw [hemp] at hok
          simp only [Bool.false_eq_true, if_false] at hok ⊢
          rw [processMarkers_spec ms (insertAfter nid t.rootChildren tree) _ hok]
          simp only [insertFold]
      | other cc =>
        rw [hct] at hok
        exact absurd hok (by simp)

/-- The assignment lists the markers' identities in order. -/
theorem importAssignments_fst :
    ∀ (ms : List (Nat × String)) (st : St9),
      (importAssignments ms st).2.2 = none →
      (importAssignments ms st).2.1.map Prod.fst = ms.map Prod.fst
  | [], _, _ => rfl
  | (nid, c) :: ms, st, hok => by
    simp only [importAssignments] at hok ⊢
    cases hdb : List.lookup c st.database with
    | none =>
      rw [hdb] at hok
      dsimp only at hok ⊢
      simp only [List.map_cons]
      rw [importAssignments_fst ms _ hok]
    | some record =>
      rw [hdb] at hok
      dsimp only at hok ⊢
      cases hct : record.content with
      | tmpl t =>
        rw [hct] at hok
        dsimp only at hok ⊢
        cases hemp : t.rootChildren.isEmpty with
        | true =>
          rw [hemp] at hok
          simp only [if_true] at hok ⊢
          simp only [List.map_cons]
          rw [importAssignments_fst ms _ hok]
        | false =>
          rw [hemp] at hok
          simp only [Bool.false_eq_true, if_false] at hok ⊢
          simp only [List.map_cons]
          rw [importAssignments_fst ms _ hok]
      | other cc =>
        rw [hct] at hok
        exact absurd hok (by simp)

/-- Values of a map update come from the old map or the update. -/
theorem mem_values_jsMapSet {α : Type} {m : List (String × α)} {k : String} {x v : α}
    (h : v ∈ (jsMapSet m k x).map Prod.snd) : v ∈ m.map Prod.snd ∨ v = x := by
  unfold jsMapSet at h
  by_cases hs : (m.lookup k).isSome
  · rw [if_pos hs] at h
    obtain ⟨p, hp, hv⟩ := List.mem_map.mp h
    obtain ⟨q, hq, hf⟩ := List.mem_map.mp hp
    by_cases hk : q.1 = k
    · right
      rw [if_pos hk] at hf
      rw [← hf] at hv
      exact hv.symm
    · left
      rw [if_neg hk] at hf
      exact List.mem_map.mpr ⟨p, hf ▸ hq, hv⟩
  · rw [if_neg hs] at h
    rw [List.map_append] at h
    rcases List.mem_append.mp h with h1 | h1
    · exact Or.inl h1
    · right
      simpa using h1

/-- Values of a merged database come from the database or the merged
entries. -/
theorem mem_values_mergeEntries :
    ∀ (ctx db : List (String × Rec9)) {v : Rec9},
      v ∈ (mergeEntries db ctx).map Prod.snd →
      v ∈ db.map Prod.snd ∨ v ∈ ctx.map Prod.snd
  | [], _, _, h => Or.inl h
  | (k, x) :: rest, db, v, h => by
    simp only [mergeEntries] at h
    rcases mem_values_mergeEntries rest (jsMapSet db k x) h with h1 | h1
    · rcases mem_values_jsMapSet h1 with h2 | h2
      · exact Or.inl h2
      · right
        simp [h2]
    · right
      simp only [List.map_cons, List.mem_cons]
      exact Or.inr h1

/-- Record values of the state after the spec's merge-and-clear step were
already record values before it. -/
theorem mem_stRecordValues_merge (st : St9) (cref : Nat) {v : Rec9}
    (h : v ∈ stRecordValues
      { st with database := mergeEntries st.database ((st.ctxStore.lookup cref).getD []),
                ctxStore := st.ctxStore.map
                  (fun p => if p.1 = cref then (p.1, ([] : List (String × Rec9))) else p) }) :
    v ∈ stRecordValues st := by
  simp only [stRecordValues] at h ⊢
  rcases List.mem_append.mp h with h1 | h1
  · rcases mem_values_mergeEntries _ _ h1 with h2 | h2
    · exact List.mem_append_left _ h2
    · cases hctx : st.ctxStore.lookup cref with
      | none =>
        rw [hctx] at h2
        exact absurd h2 (by simp)
      | some ctxl =>
        rw [hctx] at h2
        refine List.mem_append_right _ (List.mem_join.mpr ⟨ctxl.map Prod.snd, ?_, by simpa using h2⟩)
        exact List.mem_map.mpr ⟨(cref, ctxl), mem_of_lookup_eq_some hctx, rfl⟩
  · refine List.mem_append_right _ ?_
    obtain ⟨l, hl, hv⟩ := List.mem_join.mp h1
    obtain ⟨p, hp, hpl⟩ := List.mem_map.mp hl
    obtain ⟨q, hq, hqp⟩ := List.mem_map.mp hp
    by_cases hk : q.1 = cref
    · rw [if_pos hk] at hqp
      rw [← hqp] at hpl
      rw [← hpl] at hv
      exact absurd hv (by simp)
    · rw [if_neg hk] at hqp
      exact List.mem_join.mpr ⟨l, List.mem_map.mpr ⟨q, hq, hqp ▸ hpl⟩, hv⟩

/-- Every nonempty import forest of the spec walk is the child forest of
a record value already present in the initial state. -/
theorem importAssignments_values :
    ∀ (ms : List (Nat × String)) (st : St9) (q : Nat × List NTree),
      q ∈ (importAssignments ms st).2.1 →
      q.2 = [] ∨ ∃ r ∈ stRecordValues st, recKidNids r = nidsList q.2
  | [], _, _, h => absurd h (List.not_mem_nil _)
  | (nid, c) :: ms, st, q, h => by
    simp only [importAssignments] at h
    cases hdb : List.lookup c st.database with
    | none =>
      rw [hdb] at h
      dsimp only at h
      rcases List.mem_cons.mp h with h1 | h1
      · left
        rw [h1]
      · have hrec := importAssignments_values ms _ q h1
        rcases hrec with h2 | ⟨r, hr, hrk⟩
        · exact Or.inl h2
        · exact Or.inr ⟨r, hr, hrk⟩
    | some record =>
      rw [hdb] at h
      dsimp only at h
      have hrecmem : record ∈ stRecordValues st :=
        List.mem_append_left _
          (List.mem_map.mpr ⟨(c, record), mem_of_lookup_eq_some hdb, rfl⟩)
      cases hct : record.content with
      | tmpl t =>
        rw [hct] at h
        dsimp only at h
        cases hemp : t.rootChildren.isEmpty with
        | true =>
          rw [hemp] at h
          simp only [if_true] at h
          rcases List.mem_cons.mp h with h1 | h1
          · left
            rw [h1]
          · rcases importAssignments_values ms _ q h1 with h2 | ⟨r, hr, hrk⟩
            · exact Or.inl h2
            · exact Or.inr ⟨r, mem_stRecordValues_merge st t.ctxRef hr, hrk⟩
        | false =>
          rw [hemp] at h
          simp only [Bool.false_eq_true, if_false] at h
          rcases List.mem_cons.mp h with h1 | h1
          · right
            refine ⟨record, hrecmem, ?_⟩
            rw [h1]
            simp only [recKidNids, hct]
          · rcases importAssignments_values ms _ q h1 with h2 | ⟨r, hr, hrk⟩
            · exact Or.inl h2
            · exact Or.inr ⟨r, mem_stRecordValues_merge st t.ctxRef hr, hrk⟩
      | other cc =>
        rw [hct] at h
        dsimp only at h
        exact absurd h (List.not_mem_nil _)

/-- C9: node interpolation performs the claim's marker walk.  For every
content marker, in document order, the entries of its record's nested
database are copied into the parent database and the nested database is
emptied; the nested tree's immediate children replace the marker in
place in their original order (insertion immediately after the marker,
followed by removal of every marker node once all markers are
processed); a marker with a missing record or an empty nested result is
non-fatal — the diagnostic is emitted, zero nodes are inserted, and the
marker is still removed.  Formally the run equals the spec model: the
tree is the one-pass in-place substitution of each marker by its import
forest and the state is the spec walk's, with no error.  The hypotheses
are the host-identity discipline: node identities are distinct, every
marker resolves to a missing record or a completed nested result, and
no record's import forest captures a marker identity. -/
theorem claim9_node_import (root : NTree) (st : St9)
    (H1 : (nidsOf root).Nodup)
    (Hok : (importAssignments (findMarkers root) st).2.2 = none)
    (Hown : ∀ r ∈ stRecordValues st, ∀ m ∈ findMarkers root, m.1 ∉ recKidNids r) :
    interpolateNodes root st =
      (substMarkers
         (fun n => List.lookup n (importAssignments (findMarkers root) st).2.1) root,
       (importAssignments (findMarkers root) st).1, none) := by
  cases hmk : findMarkers root with
  | nil =>
    simp only [interpolateNodes, hmk, importAssignments]
    dsimp only [List.isEmpty]
    rw [if_pos rfl]
    rw [substMarkers_fresh
      (fun n => List.lookup n ([] : List (Nat × List NTree))) root (fun m _ => rfl)]
  | cons m0 mrest =>
    rw [hmk] at Hok Hown
    simp only [interpolateNodes, hmk]
    dsimp only [List.isEmpty]
    simp only [Bool.false_eq_true, if_false]
    rw [processMarkers_spec (m0 :: mrest) root st Hok]
    dsimp only
    have hfst := importAssignments_fst (m0 :: mrest) st Hok
    have hcount : ∀ (n : Nat), countNid n root ≤ 1 := by
      intro n
      rw [countNid_eq_count]
      exact List.nodup_iff_count_le_one.mp H1 n
    have hmarker : ∀ p : Nat × List NTree,
        p ∈ (importAssignments (m0 :: mrest) st).2.1 →
        ∃ m ∈ m0 :: mrest, m.1 = p.1 := by
      intro p hp
      have hmem : p.1 ∈ (m0 :: mrest).map Prod.fst := by
        rw [← hfst]
        exact List.mem_map_of_mem Prod.fst hp
      obtain ⟨m, hm, hm1⟩ := List.mem_map.mp hmem
      exact ⟨m, hm, hm1⟩
    have c1 : ((importAssignments (m0 :: mrest) st).2.1.map Prod.fst).Nodup := by
      rw [hfst]
      have hsub := findMarkers_fst_sublist root
      rw [hmk] at hsub
      exact hsub.nodup H1
    have c3 : ∀ p ∈ (importAssignments (m0 :: mrest) st).2.1, noElemNid p.1 root := by
      intro p hp
      obtain ⟨m, hm, hm1⟩ := hmarker p hp
      have hmm : (m.1, m.2) ∈ findMarkers root := by
        rw [hmk]
        exact hm
      rw [← hm1]
      exact noElemNid_of_marker m.1 m.2 root hmm (hcount m.1)
    have c4 : ∀ p ∈ (importAssignments (m0 :: mrest) st).2.1,
        ∀ q ∈ (importAssignments (m0 :: mrest) st).2.1, p.1 ∉ nidsList q.2 := by
      intro p hp q hq
      rcases importAssignments_values (m0 :: mrest) st q hq with h2 | ⟨r, hr, hrk⟩
      · rw [h2]
        simp [nidsList]
      · rw [← hrk]
        obtain ⟨m, hm, hm1⟩ := hmarker p hp
        rw [← hm1]
        exact Hown r hr m hm
    rw [show (m0 :: mrest).map Prod.fst =
        ((importAssignments (m0 :: mrest) st).2.1).map Prod.fst from hfst.symm]
    rw [removeAll_insertFold _ root c1
      (fun p _ => hcount p.1) c3 c4]

/-- First witness import node. -/
def claim9Kid1 : NTree := NTree.text 10 "hello"

/-- Second witness import node. -/
def claim9Kid2 : NTree := NTree.elem 11 []

/-- Witness nested-database entry behind the first marker. -/
def claim9Entry : Rec9 := { id := "e", content := Rec9Content.other (Content.str "v") }

/-- Witness nested-database entry behind the empty-result marker. -/
def claim9Entry2 : Rec9 := { id := "f", content := Rec9Content.other (Content.str "w") }

/-- Witness record: a completed nested result with two children and one
nested database entry. -/
def claim9Rec0 : Rec9 :=
  { id := "::0",
    content := Rec9Content.tmpl { rootChildren := [claim9Kid1, claim9Kid2], ctxRef := 0 } }

/-- Witness record: a completed nested result with no children (the
empty-result case) and its own nested database entry. -/
def claim9Rec1 : Rec9 :=
  { id := "::1", content := Rec9Content.tmpl { rootChildren := [], ctxRef := 1 } }

/-- Witness parent state. -/
def claim9St : St9 :=
  { database := [("::0", claim9Rec0), ("::1", claim9Rec1)],
    ctxStore := [(0, [("e", claim9Entry)]), (1, [("f", claim9Entry2)])],
    warnings := [] }

/-- Witness tree: a nested marker backed by a two-child result, a marker
with no record, and a marker backed by an empty result. -/
def claim9Root : NTree :=
  NTree.elem 1
    [NTree.elem 2 [NTree.comment 3 "::0"], NTree.comment 4 "::7",
     NTree.comment 5 "::1", NTree.text 6 "x"]

/-- The C9 theorem applied to the concrete tree covering all three marker
kinds: the backed marker (inside a child element) is replaced by its two
children, the recordless and empty-result markers warn and disappear,
both nested databases are merged and emptied. -/
theorem claim9_witness :
    interpolateNodes claim9Root claim9St =
      (substMarkers
         (fun n => List.lookup n (importAssignments (findMarkers claim9Root) claim9St).2.1)
         claim9Root,
       (importAssignments (findMarkers claim9Root) claim9St).1, none) :=
  claim9_node_import claim9Root claim9St (by decide) rfl (by decide)

end Heebie
